import Mathlib

/-!
Verification development for the swim-meet seeding/ranking program
(`src/core/models.py`, `src/core/reseeding.py`, `src/core/time_utils.py`,
`src/core/service.py`, `src/core/db.py`).

The Python code is shallowly embedded: dataclasses become structures,
Python's stable `list.sort(key=...)` becomes a stable insertion sort over
the same lexicographic keys, Python's `x or d` idiom (which treats `None`
AND `0` as falsy) is modelled by `pyOr`, `//` and `%` on `int` become
`Int.fdiv` / `Int.fmod` (Python's floor-division pair), and in-place field
assignment on the argument objects is modelled by the returned records
(the source functions return the very objects they mutate, so the
post-call state of an input object is its record in the returned list).
-/

namespace Syte

/-- `Swimmer` — mirrors the dataclass in `src/core/models.py` (slots=True).
Note the field set: there is a `result_status` field and NO `result_mark`
field. -/
structure Swimmer where
  id : Nat
  event_id : Nat
  full_name : String
  birth_year : Option Int := none
  team : Option String := none
  seed_time_raw : Option String := none
  seed_time_cs : Option Int := none
  heat : Option Int := none
  lane : Option Int := none
  result_time_raw : Option String := none
  result_time_cs : Option Int := none
  result_status : String := "OK"
  status : String := "OK"
deriving DecidableEq, Repr

/-- `Event` — mirrors the dataclass in `src/core/models.py`. -/
structure Event where
  id : Nat
  name : String
  lanes_count : Int
deriving DecidableEq, Repr

/-- Python's `x or d` on an optional integer: `None` and `0` are falsy and
give the default `d`; any other integer is returned unchanged.  Used for
`s.heat or 1`, `x.lane or 999`, `x.seed_time_cs or 10**9`, etc. -/
def pyOr (v : Option Int) (d : Int) : Int :=
  match v with
  | none => d
  | some x => if x = 0 then d else x

/-- Python booleans compare as integers (`False < True`); sort keys that
start with a boolean (`x is None`) are modelled with this coercion. -/
def b2i (b : Bool) : Int := if b then 1 else 0

/-- All sort keys of the program are triples compared lexicographically
(Python tuple comparison). -/
abbrev K3 := Int × Int × String

/-- Computable string `≤` (code-point lexicographic, the same order Python
uses on `str`). -/
def strLeB (a b : String) : Bool := a == b || decide (a < b)

/-- Lexicographic `≤` on key triples — Python tuple comparison. -/
def tripLe (x y : K3) : Bool :=
  if x.1 ≠ y.1 then decide (x.1 < y.1)
  else if x.2.1 ≠ y.2.1 then decide (x.2.1 < y.2.1)
  else strLeB x.2.2 y.2.2

theorem strLeB_iff (a b : String) : strLeB a b = true ↔ a ≤ b := by
  unfold strLeB
  rcases lt_trichotomy a b with h | h | h
  · simp [le_of_lt h, h]
  · simp [h]
  · constructor
    · intro hc
      simp only [Bool.or_eq_true, beq_iff_eq, decide_eq_true_eq] at hc
      rcases hc with rfl | hc
      · exact le_refl _
      · exact absurd hc (lt_asymm h)
    · intro hc; exact absurd h (not_lt_of_le hc)

theorem strLeB_refl (a : String) : strLeB a a = true := by
  simp [strLeB]

theorem strLeB_total (a b : String) : strLeB a b = true ∨ strLeB b a = true := by
  rcases le_total a b with h | h
  · exact Or.inl ((strLeB_iff a b).mpr h)
  · exact Or.inr ((strLeB_iff b a).mpr h)

theorem strLeB_trans {a b c : String} (h1 : strLeB a b = true) (h2 : strLeB b c = true) :
    strLeB a c = true :=
  (strLeB_iff a c).mpr (le_trans ((strLeB_iff a b).mp h1) ((strLeB_iff b c).mp h2))

theorem strLeB_antisymm {a b : String} (h1 : strLeB a b = true) (h2 : strLeB b a = true) :
    a = b :=
  le_antisymm ((strLeB_iff a b).mp h1) ((strLeB_iff b a).mp h2)

theorem tripLe_iff (x y : K3) : tripLe x y = true ↔
    (x.1 < y.1 ∨ (x.1 = y.1 ∧ (x.2.1 < y.2.1 ∨ (x.2.1 = y.2.1 ∧ x.2.2 ≤ y.2.2)))) := by
  unfold tripLe
  by_cases e1 : x.1 = y.1
  · by_cases e2 : x.2.1 = y.2.1
    · simp [e1, e2, strLeB_iff]
    · rcases lt_or_gt_of_ne e2 with h | h
      · simp [e1, e2, h]
      · simp [e1, e2, not_lt_of_gt h, h, not_lt_of_lt h]
  · rcases lt_or_gt_of_ne e1 with h | h
    · simp [e1, h]
    · simp [e1, not_lt_of_gt h, h]

theorem tripLe_refl (x : K3) : tripLe x x = true := by
  rw [tripLe_iff]
  exact Or.inr ⟨rfl, Or.inr ⟨rfl, le_refl _⟩⟩

theorem tripLe_total (x y : K3) : tripLe x y = true ∨ tripLe y x = true := by
  rw [tripLe_iff, tripLe_iff]
  rcases lt_trichotomy x.1 y.1 with h1 | h1 | h1
  · exact Or.inl (Or.inl h1)
  · rcases lt_trichotomy x.2.1 y.2.1 with h2 | h2 | h2
    · exact Or.inl (Or.inr ⟨h1, Or.inl h2⟩)
    · rcases le_total x.2.2 y.2.2 with h3 | h3
      · exact Or.inl (Or.inr ⟨h1, Or.inr ⟨h2, h3⟩⟩)
      · exact Or.inr (Or.inr ⟨h1.symm, Or.inr ⟨h2.symm, h3⟩⟩)
    · exact Or.inr (Or.inr ⟨h1.symm, Or.inl h2⟩)
  · exact Or.inr (Or.inl h1)

theorem tripLe_trans {x y z : K3} (h1 : tripLe x y = true) (h2 : tripLe y z = true) :
    tripLe x z = true := by
  rw [tripLe_iff] at h1 h2 ⊢
  rcases h1 with h1 | ⟨e1, h1⟩
  · rcases h2 with h2 | ⟨e2, _⟩
    · exact Or.inl (lt_trans h1 h2)
    · exact Or.inl (e2 ▸ h1)
  · rcases h2 with h2 | ⟨e2, h2⟩
    · exact Or.inl (e1 ▸ h2)
    · refine Or.inr ⟨e1.trans e2, ?_⟩
      rcases h1 with h1 | ⟨f1, h1⟩
      · rcases h2 with h2 | ⟨f2, _⟩
        · exact Or.inl (lt_trans h1 h2)
        · exact Or.inl (f2 ▸ h1)
      · rcases h2 with h2 | ⟨f2, h2⟩
        · exact Or.inl (f1 ▸ h2)
        · exact Or.inr ⟨f1.trans f2, le_trans h1 h2⟩

theorem tripLe_antisymm {x y : K3} (h1 : tripLe x y = true) (h2 : tripLe y x = true) :
    x = y := by
  rw [tripLe_iff] at h1 h2
  rcases h1 with h1 | ⟨e1, h1⟩
  · rcases h2 with h2 | ⟨e2, _⟩
    · exact absurd h2 (lt_asymm h1)
    · exact absurd h1 (by rw [e2]; exact lt_irrefl _)
  · rcases h2 with h2 | ⟨e2, h2⟩
    · exact absurd h2 (by rw [e1]; exact lt_irrefl _)
    · rcases h1 with h1 | ⟨f1, h1⟩
      · rcases h2 with h2 | ⟨f2, _⟩
        · exact absurd h2 (lt_asymm h1)
        · exact absurd h1 (by rw [f2]; exact lt_irrefl _)
      · rcases h2 with h2 | ⟨f2, h2⟩
        · exact absurd h2 (by rw [f1]; exact lt_irrefl _)
        · have hs : x.2.2 = y.2.2 := le_antisymm h1 h2
          have : x.2 = y.2 := Prod.ext f1 hs
          exact Prod.ext e1 this

theorem tripLe_of_not_le {x y : K3} (h : tripLe x y = false) : tripLe y x = true := by
  rcases tripLe_total x y with h' | h'
  · rw [h'] at h; exact absurd h (by simp)
  · exact h'

theorem ne_of_not_tripLe {x y : K3} (h : tripLe x y = false) : y ≠ x := by
  intro e
  subst e
  rw [tripLe_refl] at h
  exact absurd h (by simp)

/-- Stable insertion: `x` goes before the first element it is `≤` to.  With a
key-based `le` this is exactly the order Python's stable `sort` produces. -/
def insLe (le : α → α → Bool) (x : α) : List α → List α
  | [] => [x]
  | y :: ys => if le x y then x :: y :: ys else y :: insLe le x ys

/-- Stable sort (model of Python `sorted` / `list.sort`). -/
def isort (le : α → α → Bool) : List α → List α
  | [] => []
  | x :: xs => insLe le x (isort le xs)

/-- `le` relation induced by a key function into `K3`. -/
def kle (key : α → K3) (a b : α) : Bool := tripLe (key a) (key b)

/-- `Pairwise`-sortedness with respect to a boolean relation. -/
def SortedBy (le : α → α → Bool) (l : List α) : Prop :=
  List.Pairwise (fun a b => le a b = true) l

theorem perm_insLe (le : α → α → Bool) (x : α) (l : List α) :
    (insLe le x l).Perm (x :: l) := by
  induction l with
  | nil => exact List.Perm.refl _
  | cons y ys ih =>
    unfold insLe
    split
    · exact List.Perm.refl _
    · exact (ih.cons y).trans (List.Perm.swap x y ys)

theorem perm_isort (le : α → α → Bool) (l : List α) : (isort le l).Perm l := by
  induction l with
  | nil => exact List.Perm.refl _
  | cons x xs ih => exact (perm_insLe le x (isort le xs)).trans (ih.cons x)

theorem mem_isort (le : α → α → Bool) {l : List α} {a : α} :
    a ∈ isort le l ↔ a ∈ l :=
  (perm_isort le l).mem_iff

theorem length_isort (le : α → α → Bool) (l : List α) :
    (isort le l).length = l.length :=
  (perm_isort le l).length_eq

theorem sortedBy_insLe (key : α → K3) {l : List α} (x : α)
    (h : SortedBy (kle key) l) : SortedBy (kle key) (insLe (kle key) x l) := by
  induction l with
  | nil =>
    simp [insLe, SortedBy]
  | cons y ys ih =>
    unfold insLe
    split
    · rename_i hxy
      constructor
      · intro b hb
        rcases List.mem_cons.mp hb with hb | hb
        · subst hb; exact hxy
        · exact tripLe_trans (x := key x) (y := key y) hxy
            (List.rel_of_pairwise_cons h hb)
      · exact h
    · rename_i hxy
      have hyx : kle key y x = true :=
        tripLe_of_not_le (x := key x) (y := key y) (by simpa using hxy)
      have hys : SortedBy (kle key) ys := h.of_cons
      constructor
      · intro b hb
        rcases List.mem_cons.mp ((perm_insLe (kle key) x ys).mem_iff.mp hb) with hb | hb
        · subst hb; exact hyx
        · exact List.rel_of_pairwise_cons h hb
      · exact ih hys

theorem sortedBy_isort (key : α → K3) (l : List α) :
    SortedBy (kle key) (isort (kle key) l) := by
  induction l with
  | nil => exact List.Pairwise.nil
  | cons x xs ih => exact sortedBy_insLe key x ih

/-- Stability, in filter form: inserting an element does not reorder any
single key class. -/
theorem filter_insLe (key : α → K3) (x : α) (l : List α) (k : K3) :
    (insLe (kle key) x l).filter (fun a => decide (key a = k)) =
      if key x = k then x :: l.filter (fun a => decide (key a = k))
      else l.filter (fun a => decide (key a = k)) := by
  induction l with
  | nil => simp [insLe, List.filter_cons]
  | cons y ys ih =>
    unfold insLe
    split
    · rename_i hxy
      by_cases hk : key x = k
      · simp [List.filter_cons, hk]
      · simp [List.filter_cons, hk]
    · rename_i hxy
      have hne : key y ≠ key x := ne_of_not_tripLe (by simpa [kle] using hxy)
      by_cases hk : key x = k
      · have hyk : ¬ key y = k := by rw [← hk]; exact hne
        simp [List.filter_cons, hyk, ih, hk]
      · by_cases hyk : key y = k
        · simp [List.filter_cons, hyk, ih, hk]
        · simp [List.filter_cons, hyk, ih, hk]

/-- A stable sort preserves each key class as a sublist. -/
theorem filter_isort (key : α → K3) (l : List α) (k : K3) :
    (isort (kle key) l).filter (fun a => decide (key a = k)) =
      l.filter (fun a => decide (key a = k)) := by
  induction l with
  | nil => rfl
  | cons x xs ih =>
    show (insLe (kle key) x (isort (kle key) xs)).filter _ = _
    rw [filter_insLe key x (isort (kle key) xs) k, ih]
    by_cases hk : key x = k <;> simp [List.filter_cons, hk]

/-- Two sorted lists whose key classes are pointwise equal are equal: a
stable sort's output is determined by its key-class sublists. -/
theorem sorted_eq_of_filter_eq (key : α → K3) :
    ∀ (S T : List α), SortedBy (kle key) S → SortedBy (kle key) T →
      (∀ k : K3, S.filter (fun a => decide (key a = k)) =
        T.filter (fun a => decide (key a = k))) → S = T := by
  intro S
  induction S with
  | nil =>
    intro T _ _ hf
    cases T with
    | nil => rfl
    | cons t ts =>
      exfalso
      have := hf (key t)
      simp [List.filter_cons] at this
  | cons s ss ih =>
    intro T hS hT hf
    cases T with
    | nil =>
      exfalso
      have := hf (key s)
      simp [List.filter_cons] at this
    | cons t ts =>
      have hkeq : key s = key t := by
        by_contra hne
        -- key s occurs in T (via the filter at key s), key t occurs in S;
        -- minimality of both heads forces the keys equal.
        have h1 : (List.filter (fun a => decide (key a = key s)) (t :: ts)) ≠ [] := by
          rw [← hf (key s)]
          simp [List.filter_cons]
        have h2 : ∃ u ∈ ts, key u = key s := by
          rcases List.exists_mem_of_ne_nil _ h1 with ⟨u, hu⟩
          have hu' : key u = key s := by simpa using List.of_mem_filter hu
          rcases List.mem_cons.mp (List.mem_of_mem_filter hu) with he | humem
          · exact absurd (he ▸ hu') (fun h => hne h.symm)
          · exact ⟨u, humem, hu'⟩
        have h3 : (List.filter (fun a => decide (key a = key t)) (s :: ss)) ≠ [] := by
          rw [hf (key t)]
          simp [List.filter_cons]
        have h4 : ∃ v ∈ ss, key v = key t := by
          rcases List.exists_mem_of_ne_nil _ h3 with ⟨v, hv⟩
          have hv' : key v = key t := by simpa using List.of_mem_filter hv
          rcases List.mem_cons.mp (List.mem_of_mem_filter hv) with he | hvmem
          · exact absurd (he ▸ hv') hne
          · exact ⟨v, hvmem, hv'⟩
        rcases h2 with ⟨u, hu, hku⟩
        rcases h4 with ⟨v, hv, hkv⟩
        have hts : tripLe (key t) (key s) = true := by
          have := List.rel_of_pairwise_cons hT hu
          simpa [kle, hku] using this
        have hst : tripLe (key s) (key t) = true := by
          have := List.rel_of_pairwise_cons hS hv
          simpa [kle, hkv] using this
        exact hne (tripLe_antisymm hst hts)
      have hst : s = t := by
        have h0 := hf (key s)
        rw [List.filter_cons, List.filter_cons] at h0
        rw [if_pos (by simp)] at h0
        rw [if_pos (by simp [hkeq])] at h0
        exact (List.cons.injEq _ _ _ _).mp h0 |>.1
      subst hst
      have htails : ∀ k : K3, ss.filter (fun a => decide (key a = k)) =
          ts.filter (fun a => decide (key a = k)) := by
        intro k
        have h0 := hf k
        rw [List.filter_cons, List.filter_cons] at h0
        by_cases hk : key s = k
        · rw [if_pos (by simp [hk]), if_pos (by simp [hk])] at h0
          exact (List.cons.injEq _ _ _ _).mp h0 |>.2
        · rwa [if_neg (by simp [hk]), if_neg (by simp [hk])] at h0
      exact congrArg (s :: ·) (ih ts hS.of_cons hT.of_cons htails)

/-- Sorting is invariant under replacing the comparison by one that agrees on
all pairs drawn from the list. -/
theorem isort_congr (le le' : α → α → Bool) :
    ∀ (l : List α), (∀ a ∈ l, ∀ b ∈ l, le a b = le' a b) → isort le l = isort le' l := by
  intro l
  induction l with
  | nil => intro _; rfl
  | cons x xs ih =>
    intro h
    have hx : ∀ a ∈ xs, ∀ b ∈ xs, le a b = le' a b := by
      intro a ha b hb
      exact h a (List.mem_cons_of_mem _ ha) b (List.mem_cons_of_mem _ hb)
    show insLe le x (isort le xs) = insLe le' x (isort le' xs)
    rw [← ih hx]
    have hmem : ∀ a ∈ isort le xs, a ∈ x :: xs := fun a ha =>
      List.mem_cons_of_mem _ ((mem_isort le).mp ha)
    clear ih hx
    generalize isort le xs = M at hmem ⊢
    induction M with
    | nil => rfl
    | cons y ys ih2 =>
      have hy : le x y = le' x y :=
        h x (List.mem_cons_self _ _) y (hmem y (List.mem_cons_self _ _))
      unfold insLe
      rw [hy]
      split
      · rfl
      · rw [ih2 (fun a ha => hmem a (List.mem_cons_of_mem _ ha))]

theorem perm_eq_of_length_le_one {A B : List α} (hp : A.Perm B) (hl : A.length ≤ 1) :
    A = B := by
  match A, hl with
  | [], _ => exact hp.symm.eq_nil.symm
  | [a], _ =>
    have hlenB : B.length = 1 := by simpa using hp.length_eq.symm
    match B, hlenB with
    | [b], _ =>
      have : a = b := by simpa using hp.mem_iff (a := a)
      rw [this]

theorem filter_keyEq_length_le_one {key : α → K3} {S : List α}
    (hnd : (S.map key).Nodup) (k : K3) :
    (S.filter (fun a => decide (key a = k))).length ≤ 1 := by
  induction S with
  | nil => simp
  | cons a S' ih =>
    simp only [List.map, List.nodup_cons] at hnd
    by_cases hk : key a = k
    · have hnil : S'.filter (fun a => decide (key a = k)) = [] := by
        apply List.filter_eq_nil_iff.mpr
        intro b hb
        simp only [decide_eq_true_eq]
        intro hkb
        exact hnd.1 (List.mem_map.mpr ⟨b, hb, hkb.trans hk.symm⟩)
      simp [List.filter_cons, hk, hnil]
    · simpa [List.filter_cons, hk] using ih hnd.2

theorem sortedBy_of_perm_nodup {key : α → K3} {S T : List α}
    (hp : S.Perm T) (hS : SortedBy (kle key) S) (hT : SortedBy (kle key) T)
    (hnd : (S.map key).Nodup) : S = T := by
  apply sorted_eq_of_filter_eq key S T hS hT
  intro k
  exact perm_eq_of_length_le_one (hp.filter _) (filter_keyEq_length_le_one hnd k)

/-! ### `src/core/time_utils.py` -/

/-- the character for decimal digit `n` (`0`–`9`). -/
def digitChar (n : Nat) : Char := Char.ofNat (48 + n)

def natDecimalAux : Nat → Nat → List Char
  | 0, _ => []
  | fuel+1, n =>
    if n < 10 then [digitChar n]
    else natDecimalAux fuel (n / 10) ++ [digitChar (n % 10)]

/-- decimal digits of a natural number (Python `str(n)` for `n ≥ 0`). -/
def natDecimal (n : Nat) : List Char := natDecimalAux (n + 1) n

/-- Python `f"{m:02d}"`: zero-pad to width 2.  A negative value's sign plus
at least one digit already fill the width, so it is never padded. -/
def intPad2 (m : Int) : List Char :=
  if m < 0 then '-' :: natDecimal m.natAbs
  else if m.natAbs < 10 then '0' :: natDecimal m.natAbs
  else natDecimal m.natAbs

/-- `format_cs` — `src/core/time_utils.py` lines 36–41.  Python's `divmod`
is the floor-division pair `Int.fdiv`/`Int.fmod`. -/
def format_cs (value : Option Int) : String :=
  match value with
  | none => ""
  | some v =>
    let total_seconds := v.fdiv 100
    let centis := v.fmod 100
    let minutes := total_seconds.fdiv 60
    let seconds := total_seconds.fmod 60
    ⟨intPad2 minutes ++ ':' :: intPad2 seconds ++ ':' :: intPad2 centis⟩

def readDigit (c : Char) : Option Nat :=
  if c.isDigit then some (c.toNat - 48) else none

def isSepChar (c : Char) : Bool := c == ':' || c == '.'

/-- exactly two digits (`\d{2}` of `TIME_RE`). -/
def read2 : List Char → Option (Nat × List Char)
  | a :: b :: rest =>
    match readDigit a, readDigit b with
    | some x, some y => some (x * 10 + y, rest)
    | _, _ => none
  | _ => none

/-- one or two digits, greedily (`\d{1,2}` of `TIME_RE`; greedy matching
without backtracking is equivalent because a digit is never a separator). -/
def read12 : List Char → Option (Nat × List Char)
  | [] => none
  | [a] => (readDigit a).map (fun x => (x, ([] : List Char)))
  | a :: b :: rest =>
    match readDigit a with
    | none => none
    | some x =>
      match readDigit b with
      | some y => some (x * 10 + y, rest)
      | none => some (x, b :: rest)

/-- full match of `TIME_RE = ^(\d{1,2})[:.](\d{2})[:.](\d{2})$`. -/
def timeReMatch (cs : List Char) : Option (Nat × Nat × Nat) :=
  match read12 cs with
  | none => none
  | some (m, rest) =>
    match rest with
    | [] => none
    | s :: rest2 =>
      if isSepChar s then
        match read2 rest2 with
        | none => none
        | some (sec, rest3) =>
          match rest3 with
          | [] => none
          | t :: rest4 =>
            if isSepChar t then
              match read2 rest4 with
              | none => none
              | some (cen, rest5) =>
                if rest5 = [] then some (m, sec, cen) else none
            else none
      else none

/-- Python `str.strip()`. -/
def pyStrip (cs : List Char) : List Char :=
  ((cs.dropWhile Char.isWhitespace).reverse.dropWhile Char.isWhitespace).reverse

/-- Python `str.isdigit()` (nonempty, all decimal digits). -/
def pyIsdigit (cs : List Char) : Bool := !cs.isEmpty && cs.all Char.isDigit

/-- Python `int(...)` on a digit string. -/
def digitsToNat (cs : List Char) : Nat :=
  cs.foldl (fun acc c => acc * 10 + (c.toNat - 48)) 0

/-- `parse_seed_time_to_cs` — `src/core/time_utils.py` lines 8–33, string
branch (on `int`/`float` input the code first formats the number with two
decimals; no claim needs that branch).  `None` for unrecognized input. -/
def parse_seed_time_to_cs (value : Option String) : Option Int :=
  match value with
  | none => none
  | some v =>
    let text := (pyStrip v.data).map (fun c => if c == ',' then '.' else c)
    if text = [] then none
    else
      match timeReMatch text with
      | some (m, s, c) => some (((m * 60 + s) * 100 + c : Nat) : Int)
      | none =>
        if text.contains '.' then
          let secs_part := text.takeWhile (fun c => !(c == '.'))
          let centis_part := (text.dropWhile (fun c => !(c == '.'))).drop 1
          if pyIsdigit secs_part && pyIsdigit centis_part then
            some ((digitsToNat secs_part * 100 +
              digitsToNat ((centis_part ++ ['0', '0']).take 2) : Nat) : Int)
          else none
        else if pyIsdigit text then
          some ((digitsToNat text * 100 : Nat) : Int)
        else none

theorem fmod_natCast (m n : Nat) : (m : Int).fmod (n : Int) = ((m % n : Nat) : Int) := by
  cases m with
  | zero =>
    show Int.fmod 0 (Int.ofNat n) = Int.ofNat (0 % n)
    rw [Nat.zero_mod]
    rfl
  | succ k => rfl

theorem fdiv_natCast (m n : Nat) : (m : Int).fdiv (n : Int) = ((m / n : Nat) : Int) := by
  cases m with
  | zero =>
    show Int.fdiv 0 (Int.ofNat n) = Int.ofNat (0 / n)
    rw [Nat.zero_div]
    rfl
  | succ k => rfl

theorem natDecimalAux_small {n : Nat} (fuel : Nat) (h : n < 10) :
    natDecimalAux (fuel + 1) n = [digitChar n] := by
  unfold natDecimalAux
  rw [if_pos h]

theorem natDecimal_two_digits {n : Nat} (h10 : 10 ≤ n) (h100 : n < 100) :
    natDecimal n = [digitChar (n / 10), digitChar (n % 10)] := by
  unfold natDecimal natDecimalAux
  rw [if_neg (by omega)]
  obtain ⟨f, rfl⟩ : ∃ f, n = f + 1 := ⟨n - 1, by omega⟩
  rw [natDecimalAux_small f (by omega)]
  rfl

theorem intPad2_natCast {n : Nat} (h : n < 100) :
    intPad2 (n : Int) = [digitChar (n / 10), digitChar (n % 10)] := by
  unfold intPad2
  rw [if_neg (by omega)]
  have habs : ((n : Int)).natAbs = n := by omega
  rw [habs]
  by_cases h10 : n < 10
  · rw [if_pos h10]
    unfold natDecimal
    rw [natDecimalAux_small _ h10]
    have hd : n / 10 = 0 := by omega
    rw [hd, Nat.mod_eq_of_lt h10, show digitChar 0 = '0' from by decide]
  · rw [if_neg h10]
    exact natDecimal_two_digits (by omega) h

theorem digitChar_props {d : Nat} (h : d < 10) :
    readDigit (digitChar d) = some d ∧ (digitChar d).isWhitespace = false ∧
      (digitChar d == ',') = false ∧ isSepChar (digitChar d) = false ∧
      (digitChar d == '.') = false := by
  interval_cases d <;> exact ⟨by decide, by decide, by decide, by decide, by decide⟩

theorem pyStrip_no_ws {cs : List Char} (h : ∀ c ∈ cs, c.isWhitespace = false) :
    pyStrip cs = cs := by
  unfold pyStrip
  have h1 : cs.dropWhile Char.isWhitespace = cs := by
    rw [List.dropWhile_eq_self_iff]
    intro hl
    have hm := List.get_mem cs 0 hl
    simpa using h _ hm
  rw [h1]
  have h2 : cs.reverse.dropWhile Char.isWhitespace = cs.reverse := by
    rw [List.dropWhile_eq_self_iff]
    intro hl
    have hm := List.get_mem cs.reverse 0 hl
    rw [List.mem_reverse] at hm
    simpa [List.getElem_reverse] using h _ hm
  rw [h2, List.reverse_reverse]

theorem parse_digit_pairs (a1 a2 b1 b2 e1 e2 : Nat)
    (ha1 : a1 < 10) (ha2 : a2 < 10) (hb1 : b1 < 10) (hb2 : b2 < 10)
    (he1 : e1 < 10) (he2 : e2 < 10) :
    parse_seed_time_to_cs (some ⟨[digitChar a1, digitChar a2, ':',
      digitChar b1, digitChar b2, ':', digitChar e1, digitChar e2]⟩) =
      some ((((a1 * 10 + a2) * 60 + (b1 * 10 + b2)) * 100 + (e1 * 10 + e2) : Nat) : Int) := by
  obtain ⟨r1, w1, k1, s1, d1⟩ := digitChar_props ha1
  obtain ⟨r2, w2, k2, s2, d2⟩ := digitChar_props ha2
  obtain ⟨r3, w3, k3, s3, d3⟩ := digitChar_props hb1
  obtain ⟨r4, w4, k4, s4, d4⟩ := digitChar_props hb2
  obtain ⟨r5, w5, k5, s5, d5⟩ := digitChar_props he1
  obtain ⟨r6, w6, k6, s6, d6⟩ := digitChar_props he2
  have hws : ∀ c ∈ [digitChar a1, digitChar a2, ':',
      digitChar b1, digitChar b2, ':', digitChar e1, digitChar e2], c.isWhitespace = false := by
    intro c hcm
    simp only [List.mem_cons, List.not_mem_nil, or_false] at hcm
    rcases hcm with rfl | rfl | rfl | rfl | rfl | rfl | rfl | rfl
    · exact w1
    · exact w2
    · rfl
    · exact w3
    · exact w4
    · rfl
    · exact w5
    · exact w6
  unfold parse_seed_time_to_cs
  simp only [pyStrip_no_ws hws, List.map_cons, List.map_nil, k1, k2, k3, k4, k5, k6,
    Bool.false_eq_true, if_false]
  have hcomma : (':' == ',') = false := by decide
  simp only [hcomma, Bool.false_eq_true, if_false]
  have hsep : isSepChar ':' = true := by decide
  have hmatch : timeReMatch [digitChar a1, digitChar a2, ':',
      digitChar b1, digitChar b2, ':', digitChar e1, digitChar e2] =
      some (a1 * 10 + a2, b1 * 10 + b2, e1 * 10 + e2) := by
    simp only [timeReMatch, read12, read2, r1, r2, r3, r4, r5, r6, hsep, if_true]
  simp only [hmatch]
  simp

/-- C6: round trip of the time codec.  For every centiseconds value `v`
representable in the `"MM:SS:CC"` pattern that `format_cs` renders (i.e.
`v < 600000`, one hundred minutes), parsing the formatted text yields the
original value: `parse_seed_time_to_cs (format_cs v) = v`. -/
theorem C6_time_codec_roundtrip (v : Nat) (h : v < 600000) :
    parse_seed_time_to_cs (some (format_cs (some (v : Int)))) = some ((v : Int)) := by
  have hfmt : format_cs (some (v : Int)) =
      ⟨[digitChar (v / 6000 / 10), digitChar (v / 6000 % 10), ':',
        digitChar (v / 100 % 60 / 10), digitChar (v / 100 % 60 % 10), ':',
        digitChar (v % 100 / 10), digitChar (v % 100 % 10)]⟩ := by
    have t1 : (v : Int).fdiv 100 = ((v / 100 : Nat) : Int) := fdiv_natCast v 100
    have t2 : (v : Int).fmod 100 = ((v % 100 : Nat) : Int) := fmod_natCast v 100
    have t3 : ((v / 100 : Nat) : Int).fdiv 60 = ((v / 100 / 60 : Nat) : Int) :=
      fdiv_natCast (v / 100) 60
    have t4 : ((v / 100 : Nat) : Int).fmod 60 = ((v / 100 % 60 : Nat) : Int) :=
      fmod_natCast (v / 100) 60
    show (⟨intPad2 (((v : Int).fdiv 100).fdiv 60) ++
        ':' :: intPad2 (((v : Int).fdiv 100).fmod 60) ++
        ':' :: intPad2 ((v : Int).fmod 100)⟩ : String) = _
    rw [t1, t2, t3, t4, Nat.div_div_eq_div_mul]
    rw [intPad2_natCast (by omega), intPad2_natCast (by omega), intPad2_natCast (by omega)]
    rfl
  rw [hfmt, parse_digit_pairs _ _ _ _ _ _ (by omega) (by omega) (by omega) (by omega)
    (by omega) (by omega)]
  have harith : ((v / 6000 / 10 * 10 + v / 6000 % 10) * 60 +
      (v / 100 % 60 / 10 * 10 + v / 100 % 60 % 10)) * 100 +
      (v % 100 / 10 * 10 + v % 100 % 10) = v := by omega
  rw [harith]

/-- C6 witness: the round trip evaluated at the concrete value 3000
centiseconds (`"00:30:00"`). -/
theorem C6_time_codec_roundtrip_witness :
    (3000 : Nat) < 600000 ∧
      parse_seed_time_to_cs (some (format_cs (some ((3000 : Nat) : Int)))) =
        some (((3000 : Nat)) : Int) :=
  ⟨by decide, C6_time_codec_roundtrip 3000 (by decide)⟩

/-! ### `src/core/reseeding.py` -/

def isDNS (s : Swimmer) : Bool := s.status == "DNS"

/-- the in-place `s.heat = None; s.lane = None` applied to an absent swimmer. -/
def clearHL (s : Swimmer) : Swimmer := {s with heat := none, lane := none}

/-- the `unchanged` list of `compress_lanes_within_heats`: DNS swimmers in
input order, heat/lane cleared. -/
def dnsPart (l : List Swimmer) : List Swimmer := (l.filter isDNS).map clearHL

def activesPart (l : List Swimmer) : List Swimmer := l.filter (fun s => !(isDNS s))

/-- grouping key `s.heat or 1` (`defaultdict` grouping of the actives). -/
def heatKeyOf (s : Swimmer) : Int := pyOr s.heat 1

/-- the group collected under key `h`, in input order. -/
def heatGroup (l : List Swimmer) (h : Int) : List Swimmer :=
  (activesPart l).filter (fun s => heatKeyOf s == h)

def intKey (i : Int) : K3 := (i, 0, "")

/-- `sorted(grouped.keys())`. -/
def heatKeys (l : List Swimmer) : List Int :=
  isort (kle intKey) (((activesPart l).map heatKeyOf).dedup)

/-- per-heat lane sort key `(x.lane or 999, x.seed_time_cs or 10**9, x.full_name)`. -/
def laneSortKey (s : Swimmer) : K3 :=
  (pyOr s.lane 999, pyOr s.seed_time_cs 1000000000, s.full_name)

/-- `for idx, swimmer in enumerate(active, start=1): swimmer.heat = heat;
swimmer.lane = idx` (called with `idx = 1`). -/
def assignLanes (h : Int) : Nat → List Swimmer → List Swimmer
  | _, [] => []
  | idx, s :: rest =>
    {s with heat := some h, lane := some (idx : Int)} :: assignLanes h (idx + 1) rest

/-- final presentation key `(x.heat or 999, x.lane or 999, x.full_name)`. -/
def outSortKey (s : Swimmer) : K3 := (pyOr s.heat 999, pyOr s.lane 999, s.full_name)

/-- `compress_lanes_within_heats` — `src/core/reseeding.py` lines 9–28.
DNS swimmers get heat/lane cleared; actives are grouped by `heat or 1`,
each group is sorted by `laneSortKey` and its lanes renumbered 1..N with
the group's key written back as the heat; the whole result is finally
sorted by `outSortKey`. -/
def compress_lanes_within_heats (l : List Swimmer) : List Swimmer :=
  isort (kle outSortKey)
    (dnsPart l ++ (heatKeys l).flatMap
      (fun h => assignLanes h 1 (isort (kle laneSortKey) (heatGroup l h))))

/-- full-reseed sort key `(x.seed_time_cs is None, x.seed_time_cs or 10**12,
x.full_name)`. -/
def seedSortKey (s : Swimmer) : K3 :=
  (b2i s.seed_time_cs.isNone, pyOr s.seed_time_cs 1000000000000, s.full_name)

/-- `swimmer.heat = idx // lanes_count + 1; swimmer.lane = idx % lanes_count
+ 1` over `enumerate(active)`; `//`/`%` are Python floor division. -/
def assignByRank (L : Int) : Nat → List Swimmer → List Swimmer
  | _, [] => []
  | i, s :: rest =>
    {s with heat := some ((i : Int).fdiv L + 1),
            lane := some ((i : Int).fmod L + 1)} :: assignByRank L (i + 1) rest

/-- `full_reseed` — `src/core/reseeding.py` lines 31–48.  (Python raises
`ZeroDivisionError` when `lanes_count = 0`, so every theorem below assumes
`lanes_count ≥ 1` as the spec requires.) -/
def full_reseed (l : List Swimmer) (lanes_count : Int) : List Swimmer :=
  assignByRank lanes_count 0 (isort (kle seedSortKey) (activesPart l)) ++ dnsPart l

theorem clearHL_clearHL (s : Swimmer) : clearHL (clearHL s) = clearHL s := rfl

theorem assignLanes_map_clearHL (h : Int) :
    ∀ (i : Nat) (g : List Swimmer), (assignLanes h i g).map clearHL = g.map clearHL := by
  intro i g
  induction g generalizing i with
  | nil => rfl
  | cons s rest ih => simp [assignLanes, clearHL, ih]

theorem assignByRank_map_clearHL (L : Int) :
    ∀ (i : Nat) (g : List Swimmer), (assignByRank L i g).map clearHL = g.map clearHL := by
  intro i g
  induction g generalizing i with
  | nil => rfl
  | cons s rest ih => simp [assignByRank, clearHL, ih]

theorem flatMap_perm_congr {κ} (ks : List κ) (f g : κ → List α)
    (h : ∀ k ∈ ks, (f k).Perm (g k)) : (ks.flatMap f).Perm (ks.flatMap g) := by
  induction ks with
  | nil => exact List.Perm.refl _
  | cons k ks ih =>
    simp only [List.flatMap_cons]
    exact (h k (List.mem_cons_self _ _)).append
      (ih (fun k' hk' => h k' (List.mem_cons_of_mem _ hk')))

/-- Partitioning a list by the distinct values of a key covers it exactly. -/
theorem flatMap_filter_key_perm {κ} [DecidableEq κ] (f : α → κ) :
    ∀ (ks : List κ) (A : List α), ks.Nodup → (∀ a ∈ A, f a ∈ ks) →
      (ks.flatMap (fun k => A.filter (fun a => f a == k))).Perm A := by
  intro ks
  induction ks with
  | nil =>
    intro A _ hcov
    have : A = [] := by
      cases A with
      | nil => rfl
      | cons a as => exact absurd (hcov a (List.mem_cons_self _ _)) (List.not_mem_nil _)
    rw [this]
    exact List.Perm.refl _
  | cons k ks ih =>
    intro A hnd hcov
    simp only [List.flatMap_cons]
    have hnk : k ∉ ks := (List.nodup_cons.mp hnd).1
    have hnd' : ks.Nodup := (List.nodup_cons.mp hnd).2
    have hfilters : ∀ k' ∈ ks, A.filter (fun a => f a == k') =
        (A.filter (fun a => !(f a == k))).filter (fun a => f a == k') := by
      intro k' hk'
      rw [List.filter_filter]
      apply List.filter_congr
      intro a _
      by_cases hfa : f a = k'
      · have : ¬ f a = k := fun he => hnk (he ▸ hfa ▸ hk')
        simp only [hfa, this, beq_iff_eq, Bool.not_eq_true', beq_eq_false_iff_ne, ne_eq,
          not_false_eq_true, Bool.true_and, Bool.and_true, decide_eq_true_eq]
        simp [this]
        exact fun he => hnk (he ▸ hk')
      · simp [hfa]
    have hflat : ks.flatMap (fun k' => A.filter (fun a => f a == k')) =
        ks.flatMap (fun k' => (A.filter (fun a => !(f a == k))).filter (fun a => f a == k')) := by
      apply List.flatMap_congr
      intro k' hk'
      exact hfilters k' hk'
    rw [hflat]
    have hcov' : ∀ a ∈ A.filter (fun a => !(f a == k)), f a ∈ ks := by
      intro a ha
      have h1 := List.of_mem_filter ha
      have h2 := List.mem_of_mem_filter ha
      rcases List.mem_cons.mp (hcov a h2) with he | hm
      · exfalso
        simp only [Bool.not_eq_true', beq_eq_false_iff_ne, ne_eq] at h1
        exact h1 he
      · exact hm
    exact (List.Perm.append_left _ (ih _ hnd' hcov')).trans (List.filter_append_perm _ A)

theorem heatKeys_nodup (l : List Swimmer) : (heatKeys l).Nodup :=
  (perm_isort _ _).nodup_iff.mpr (List.nodup_dedup _)

theorem heatKey_mem_heatKeys {l : List Swimmer} {s : Swimmer}
    (hs : s ∈ activesPart l) : heatKeyOf s ∈ heatKeys l := by
  unfold heatKeys
  rw [mem_isort, List.mem_dedup]
  exact List.mem_map_of_mem heatKeyOf hs

/-- The post-sort content of `compress_lanes_within_heats`, erased down to
the fields the operation does not touch, is the input's content. -/
theorem compress_map_clearHL_perm (l : List Swimmer) :
    ((compress_lanes_within_heats l).map clearHL).Perm (l.map clearHL) := by
  unfold compress_lanes_within_heats
  refine ((perm_isort _ _).map clearHL).trans ?_
  rw [List.map_append]
  have hdns : (dnsPart l).map clearHL = (l.filter isDNS).map clearHL := by
    unfold dnsPart
    rw [List.map_map]
    rfl
  rw [hdns, List.map_flatMap]
  have hgrp : ((heatKeys l).flatMap
      (fun h => ((assignLanes h 1 (isort (kle laneSortKey) (heatGroup l h))).map clearHL))).Perm
      (((activesPart l).map clearHL)) := by
    have h1 : ∀ h ∈ heatKeys l,
        ((assignLanes h 1 (isort (kle laneSortKey) (heatGroup l h))).map clearHL).Perm
          ((heatGroup l h).map clearHL) := by
      intro h _
      rw [assignLanes_map_clearHL]
      exact (perm_isort _ _).map clearHL
    refine (flatMap_perm_congr _ _ _ h1).trans ?_
    have h2 : (heatKeys l).flatMap (fun h => (heatGroup l h).map clearHL) =
        ((heatKeys l).flatMap (fun h => heatGroup l h)).map clearHL := by
      rw [List.map_flatMap]
    rw [h2]
    refine List.Perm.map clearHL ?_
    exact flatMap_filter_key_perm heatKeyOf (heatKeys l) (activesPart l) (heatKeys_nodup l)
      (fun a ha => heatKey_mem_heatKeys ha)
  refine (List.Perm.append_left _ hgrp).trans ?_
  have : (l.filter isDNS).map clearHL ++ (activesPart l).map clearHL =
      ((l.filter isDNS) ++ activesPart l).map clearHL := by
    rw [List.map_append]
  rw [this]
  exact List.Perm.map clearHL (List.filter_append_perm isDNS l)

/-- Same erasure fact for `full_reseed`. -/
theorem full_reseed_map_clearHL_perm (l : List Swimmer) (L : Int) :
    ((full_reseed l L).map clearHL).Perm (l.map clearHL) := by
  unfold full_reseed
  rw [List.map_append, assignByRank_map_clearHL]
  have hact : ((isort (kle seedSortKey) (activesPart l)).map clearHL).Perm
      ((activesPart l).map clearHL) := (perm_isort _ _).map clearHL
  have hdns : (dnsPart l).map clearHL = (l.filter isDNS).map clearHL := by
    unfold dnsPart
    rw [List.map_map]
    rfl
  rw [hdns]
  refine (hact.append (List.Perm.refl _)).trans ?_
  rw [← List.map_append]
  refine (List.Perm.map clearHL ?_)
  exact (List.perm_append_comm).trans (List.filter_append_perm isDNS l)

/-- a DNS competitor that still carries a heat/lane assignment. -/
def mutcx : Swimmer :=
  { id := 7, event_id := 1, full_name := "A", heat := some 2, lane := some 3, status := "DNS" }

/-- C9 counterexample: the claim says the operations "do not mutate the
competitor records they are given in place — after a call, every input
competitor still carries the heat, lane and status values it had before".
The source assigns `s.heat = None; s.lane = None` directly on the argument
object (`reseeding.py` lines 14–15) and returns that same object, so the
post-call state of the single input object (id 7) is the returned record:
its heat/lane are `None`, not the `heat 2 / lane 3` it carried before. -/
theorem C9_reseed_mutates_in_place :
    ((compress_lanes_within_heats [mutcx]).map fun t => (t.id, t.heat, t.lane)) =
        [(7, none, none)] ∧
      mutcx.heat = some 2 ∧ mutcx.lane = some 3 := by
  decide

/-- C9 amended: both reseeding operations return a permutation of the very
records they were given, with only the `heat` and `lane` fields updated in
place — every other field, in particular `status`, is unchanged (erasing
heat/lane makes output and input equal as multisets). -/
theorem C9_amended_only_heat_lane_updated (l : List Swimmer) (L : Int) (hL : 1 ≤ L) :
    ((compress_lanes_within_heats l).map clearHL).Perm (l.map clearHL) ∧
      ((full_reseed l L).map clearHL).Perm (l.map clearHL) :=
  ⟨compress_map_clearHL_perm l, full_reseed_map_clearHL_perm l L⟩

/-- an active competitor used in small concrete rosters. -/
def mutcx2 : Swimmer :=
  { id := 8, event_id := 1, full_name := "B", heat := some 1, lane := some 2 }

/-- C9 witness: the amended statement at a concrete two-swimmer list. -/
theorem C9_amended_witness :
    (1 : Int) ≤ 2 ∧
      (((compress_lanes_within_heats [mutcx, mutcx2]).map clearHL).Perm
          ([mutcx, mutcx2].map clearHL) ∧
        ((full_reseed [mutcx, mutcx2] 2).map clearHL).Perm
          ([mutcx, mutcx2].map clearHL)) :=
  ⟨by decide, C9_amended_only_heat_lane_updated _ 2 (by decide)⟩

/-- Written from the spec's words for `fullReseed` (§4.1), not from the
source: ACTIVE competitors are sorted by seed time ascending with a null
seed time after every present one and name ascending as tie-break. -/
def specSeedKey (s : Swimmer) : K3 :=
  (b2i s.seed_time_cs.isNone, s.seed_time_cs.getD 0, s.full_name)

/-- Written from the spec's words: for zero-based rank `r`,
`heat = r div laneCapacity + 1`, `lane = r mod laneCapacity + 1`. -/
def specAssign (L : Nat) : Nat → List Swimmer → List Swimmer
  | _, [] => []
  | r, s :: rest =>
    {s with heat := some ((r / L + 1 : Nat) : Int),
            lane := some ((r % L + 1 : Nat) : Int)} :: specAssign L (r + 1) rest

/-- Written from the spec's words: ACTIVE competitors sorted and
re-assigned, followed by ABSENT competitors with heat/lane null. -/
def fullReseedSpec (l : List Swimmer) (L : Nat) : List Swimmer :=
  specAssign L 0 (isort (kle specSeedKey) (activesPart l)) ++ dnsPart l

theorem assignByRank_eq_spec (L : Nat) :
    ∀ (i : Nat) (g : List Swimmer), assignByRank (L : Int) i g = specAssign L i g := by
  intro i g
  induction g generalizing i with
  | nil => rfl
  | cons s rest ih =>
    unfold assignByRank specAssign
    rw [ih]
    have h1 : (i : Int).fdiv (L : Int) + 1 = ((i / L + 1 : Nat) : Int) := by
      rw [fdiv_natCast]; push_cast; ring
    have h2 : (i : Int).fmod (L : Int) + 1 = ((i % L + 1 : Nat) : Int) := by
      rw [fmod_natCast]; push_cast; ring
    rw [h1, h2]

theorem bool_eq_of_iff {x y : Bool} (h : x = true ↔ y = true) : x = y := by
  cases x <;> cases y <;> simp_all

theorem seedKey_agree {a b : Swimmer}
    (ha : a.seed_time_cs ≠ some 0) (hb : b.seed_time_cs ≠ some 0) :
    kle seedSortKey a b = kle specSeedKey a b := by
  apply bool_eq_of_iff
  unfold kle seedSortKey specSeedKey
  rw [tripLe_iff, tripLe_iff]
  cases hsa : a.seed_time_cs with
  | none =>
    cases hsb : b.seed_time_cs with
    | none => simp [pyOr, b2i]
    | some w =>
      have hw : w ≠ 0 := fun he => hb (by rw [hsb, he])
      simp [pyOr, b2i, hw]
  | some v =>
    have hv : v ≠ 0 := fun he => ha (by rw [hsa, he])
    cases hsb : b.seed_time_cs with
    | none => simp [pyOr, b2i, hv]
    | some w =>
      have hw : w ≠ 0 := fun he => hb (by rw [hsb, he])
      simp [pyOr, b2i, hv, hw]

theorem full_reseed_matches_spec (l : List Swimmer) (L : Nat)
    (h0 : ∀ s ∈ l, isDNS s = false → s.seed_time_cs ≠ some 0) :
    full_reseed l (L : Int) = fullReseedSpec l L := by
  unfold full_reseed fullReseedSpec
  rw [assignByRank_eq_spec]
  have hsort : isort (kle seedSortKey) (activesPart l) =
      isort (kle specSeedKey) (activesPart l) := by
    apply isort_congr
    intro a ha b hb
    have ha' : a.seed_time_cs ≠ some 0 :=
      h0 a (List.mem_of_mem_filter ha) (by simpa using List.of_mem_filter ha)
    have hb' : b.seed_time_cs ≠ some 0 :=
      h0 b (List.mem_of_mem_filter hb) (by simpa using List.of_mem_filter hb)
    exact seedKey_agree ha' hb'
  rw [hsort]

/-- C7: for every competitor list and laneCapacity ≥ 1 in which no ACTIVE
competitor has a seed time of exactly 0 centiseconds, `full_reseed` sorts
the actives by seed time ascending (null seed last, name tie-break) and
assigns `heat = r div laneCapacity + 1`, `lane = r mod laneCapacity + 1`
for zero-based rank `r` — i.e. it equals the operation described by the
spec.  (The zero-seed exception is forced by the counterexample below:
Python's `or` treats a seed of `0` as missing in the sort key.) -/
theorem C7_full_reseed_follows_spec (l : List Swimmer) (L : Nat) (hL : 1 ≤ L)
    (h0 : ∀ s ∈ l, isDNS s = false → s.seed_time_cs ≠ some 0) :
    full_reseed l (L : Int) = fullReseedSpec l L :=
  full_reseed_matches_spec l L h0

def z0A : Swimmer := { id := 1, event_id := 1, full_name := "a", seed_time_cs := some 100 }

def z0B : Swimmer := { id := 2, event_id := 1, full_name := "b", seed_time_cs := some 0 }

/-- C7 counterexample: with seed times 100cs and 0cs, the code does NOT sort
by seed time ascending — `x.seed_time_cs or 10**12` turns the 0 seed into
the large sentinel, so the 0-seed competitor is ranked after the 100cs one,
contradicting the claim's sort order (the spec-described operation differs
from the code on this input). -/
theorem C7_zero_seed_counterexample :
    full_reseed [z0A, z0B] 2 ≠ fullReseedSpec [z0A, z0B] 2 ∧
      ((full_reseed [z0A, z0B] 2).map fun s => (s.id, s.heat, s.lane)) =
        [(1, some 1, some 1), (2, some 1, some 2)] := by
  constructor
  · decide
  · decide

def wX : Swimmer := { id := 1, event_id := 1, full_name := "X", seed_time_cs := some 5888 }

def wY : Swimmer := { id := 2, event_id := 1, full_name := "Y", seed_time_cs := some 5921 }

def wZ : Swimmer := { id := 3, event_id := 1, full_name := "Z", seed_time_cs := some 6043 }

def wW : Swimmer := { id := 4, event_id := 1, full_name := "W", seed_time_cs := some 6071 }

/-- C7 witness: the spec's determinism example — seeds 58.88s, 59.21s,
60.43s, 60.71s with laneCapacity 2 give (heat 1, lane 1), (heat 1, lane 2),
(heat 2, lane 1), (heat 2, lane 2). -/
theorem C7_full_reseed_witness :
    1 ≤ 2 ∧ (∀ s ∈ [wX, wY, wZ, wW], isDNS s = false → s.seed_time_cs ≠ some 0) ∧
      full_reseed [wX, wY, wZ, wW] ((2 : Nat) : Int) = fullReseedSpec [wX, wY, wZ, wW] 2 ∧
      ((full_reseed [wX, wY, wZ, wW] ((2 : Nat) : Int)).map fun s =>
          (s.full_name, s.heat, s.lane)) =
        [("X", some 1, some 1), ("Y", some 1, some 2),
          ("Z", some 2, some 1), ("W", some 2, some 2)] :=
  ⟨by decide, by decide,
    C7_full_reseed_follows_spec [wX, wY, wZ, wW] 2 (by decide) (by decide), by decide⟩

/-! ### `src/core/service.py` — ranking / placement (lines 129–132) -/

/-- ranking key `(s.result_time_cs is None, s.result_time_cs or 99999999,
s.full_name)`. -/
def rankSortKey (s : Swimmer) : K3 :=
  (b2i s.result_time_cs.isNone, pyOr s.result_time_cs 99999999, s.full_name)

/-- `ranked = sorted(active, key=...)` over
`active = [s for s in swimmers if s.status != "DNS"]`. -/
def protocolRanked (l : List Swimmer) : List Swimmer :=
  isort (kle rankSortKey) (activesPart l)

/-- Python `enumerate`. -/
def enumFrom : Nat → List α → List (Nat × α)
  | _, [] => []
  | i, a :: as => (i, a) :: enumFrom (i + 1) as

/-- `places = {s.id: idx + 1 for idx, s in enumerate(ranked) if
s.result_time_cs is not None}`, as the list of dict insertions. -/
def protocolPlaces (l : List Swimmer) : List (Nat × Nat) :=
  (enumFrom 0 (protocolRanked l)).filterMap
    (fun p => if p.2.result_time_cs.isSome then some (p.2.id, p.1 + 1) else none)

/-- Python dict lookup (`places.get(id)`): the LAST binding for a key wins. -/
def dictGet (m : List (Nat × Nat)) (k : Nat) : Option Nat := m.reverse.lookup k

theorem enumFrom_filterMap_none :
    ∀ (i : Nat) (M : List Swimmer), (∀ b ∈ M, b.result_time_cs.isSome = false) →
      (enumFrom i M).filterMap
        (fun p => if p.2.result_time_cs.isSome then some (p.2.id, p.1 + 1) else none) = [] := by
  intro i M
  induction M generalizing i with
  | nil => intro _; rfl
  | cons s M' ih =>
    intro h
    simp only [enumFrom, List.filterMap_cons, h s (List.mem_cons_self _ _),
      Bool.false_eq_true, if_false]
    exact ih (i + 1) (fun b hb => h b (List.mem_cons_of_mem _ hb))

theorem rank_sorted_isNone_tail {s : Swimmer} {M : List Swimmer}
    (hs : s.result_time_cs.isSome = false)
    (hM : SortedBy (kle rankSortKey) (s :: M)) :
    ∀ b ∈ M, b.result_time_cs.isSome = false := by
  intro b hb
  have hle := List.rel_of_pairwise_cons hM hb
  rw [kle, tripLe_iff] at hle
  have hs1 : (rankSortKey s).1 = 1 := by
    cases hcs : s.result_time_cs with
    | none => simp [rankSortKey, hcs, b2i]
    | some v => rw [hcs] at hs; simp at hs
  by_contra hbs
  simp only [Bool.not_eq_false] at hbs
  have hb1 : (rankSortKey b).1 = 0 := by
    cases hcb : b.result_time_cs with
    | none => rw [hcb] at hbs; simp at hbs
    | some v => simp [rankSortKey, hcb, b2i]
  rcases hle with h1 | ⟨h1, _⟩
  · rw [hs1, hb1] at h1; omega
  · rw [hs1, hb1] at h1; omega

/-- Because the ranking key leads with `result_time_cs is None`, the
time-bearing competitors form a prefix of the ranked list, and the
enumerate-filter placement construction coincides with numbering the
time-bearing sublist 1, 2, 3, … -/
theorem enum_filterMap_eq_filter :
    ∀ (M : List Swimmer), SortedBy (kle rankSortKey) M → ∀ (i : Nat),
      (enumFrom i M).filterMap
        (fun p => if p.2.result_time_cs.isSome then some (p.2.id, p.1 + 1) else none) =
      (enumFrom i (M.filter (fun s => s.result_time_cs.isSome))).map
        (fun p => (p.2.id, p.1 + 1)) := by
  intro M
  induction M with
  | nil => intro _ i; rfl
  | cons s M' ih =>
    intro hM i
    by_cases hsome : s.result_time_cs.isSome = true
    · simp only [enumFrom, List.filterMap_cons, hsome, if_true, List.filter_cons, List.map]
      rw [ih hM.of_cons (i + 1)]
    · simp only [Bool.not_eq_true] at hsome
      have hall := rank_sorted_isNone_tail hsome hM
      simp only [enumFrom, List.filterMap_cons, hsome, Bool.false_eq_true, if_false]
      rw [enumFrom_filterMap_none (i + 1) M' hall]
      have hnil : (s :: M').filter (fun s => s.result_time_cs.isSome) = [] := by
        apply List.filter_eq_nil_iff.mpr
        intro b hb
        rcases List.mem_cons.mp hb with rfl | hb
        · simp [hsome]
        · simp [hall b hb]
      rw [hnil]
      rfl

/-- an active competitor with a disqualification mark AND a recorded time. -/
def dqcx : Swimmer :=
  { id := 9, event_id := 1, full_name := "D", result_time_cs := some 3000,
    result_status := "DQ" }

/-- C1 counterexample: the claim says a place is assigned ONLY to competitors
whose result mark is the valid sentinel ("OK") and whose result time is
present.  The code (`service.py` lines 129–132) never consults the mark:
this active competitor is marked "DQ" yet holds a recorded time, and the
placement map gives it place 1. -/
theorem C1_place_ignores_mark :
    dictGet (protocolPlaces [dqcx]) 9 = some 1 ∧
      dqcx.result_status = "DQ" ∧ dqcx.status = "OK" := by
  decide

/-- C1 amended: the ranking computation assigns 1-based place numbers to
exactly the ACTIVE competitors whose result time is present — regardless of
their result mark — numbering them consecutively in sorted order (null
time sorts last, name tie-break); actives without a recorded time receive
no place but still appear in the sorted output, which is a permutation of
the active roster. -/
theorem C1_amended_places_by_time_only (l : List Swimmer) :
    protocolPlaces l =
      (enumFrom 0 ((protocolRanked l).filter (fun s => s.result_time_cs.isSome))).map
        (fun p => (p.2.id, p.1 + 1)) ∧
      (protocolRanked l).Perm (activesPart l) :=
  ⟨enum_filterMap_eq_filter (protocolRanked l) (sortedBy_isort rankSortKey _) 0,
    perm_isort _ _⟩

/-! ### `src/core/service.py` — protocol row rendering and `result_mark` (C4) -/

/-- a Python attribute value of a `Swimmer` field. -/
inductive PyVal where
  | vNone
  | vInt (i : Int)
  | vStr (s : String)
deriving DecidableEq, Repr

def optIntVal : Option Int → PyVal
  | none => PyVal.vNone
  | some i => PyVal.vInt i

def optStrVal : Option String → PyVal
  | none => PyVal.vNone
  | some s => PyVal.vStr s

/-- the attribute table of a `Swimmer` instance — exactly the fields
declared in `src/core/models.py`; with `slots=True` no other attribute
exists on an instance. -/
def Swimmer.pyattrs (s : Swimmer) : List (String × PyVal) :=
  [("id", PyVal.vInt (s.id : Int)), ("event_id", PyVal.vInt (s.event_id : Int)),
   ("full_name", PyVal.vStr s.full_name), ("birth_year", optIntVal s.birth_year),
   ("team", optStrVal s.team), ("seed_time_raw", optStrVal s.seed_time_raw),
   ("seed_time_cs", optIntVal s.seed_time_cs), ("heat", optIntVal s.heat),
   ("lane", optIntVal s.lane), ("result_time_raw", optStrVal s.result_time_raw),
   ("result_time_cs", optIntVal s.result_time_cs),
   ("result_status", PyVal.vStr s.result_status), ("status", PyVal.vStr s.status)]

/-- Python attribute access on the slotted instance: `AttributeError` when
the name is not a declared field. -/
def pygetattr (s : Swimmer) (name : String) : Except String PyVal :=
  match s.pyattrs.find? (fun p => p.1 == name) with
  | some p => Except.ok p.2
  | none => Except.error ("AttributeError: Swimmer object has no attribute " ++ name)

/-- Python `str(i)` for an `int`. -/
def intRepr (i : Int) : String :=
  if i < 0 then ⟨'-' :: natDecimal i.natAbs⟩ else ⟨natDecimal i.natAbs⟩

def pyValStr : PyVal → String
  | PyVal.vNone => "None"
  | PyVal.vInt i => intRepr i
  | PyVal.vStr t => t

/-- `{expr or default}` inside the row f-string: a falsy value (None, 0,
empty string) renders the default. -/
def pyOrRender (v : PyVal) (d : String) : String :=
  match v with
  | PyVal.vNone => d
  | PyVal.vInt i => if i = 0 then d else intRepr i
  | PyVal.vStr t => if t = "" then d else t

/-- `row_html` — `src/core/service.py` lines 134–145: the f-string reads the
swimmer's attributes in order; `s.result_mark` is read like the others. -/
def row_html (s : Swimmer) (place : String) : Except String String := do
  let heat ← pygetattr s "heat"
  let lane ← pygetattr s "lane"
  let nm ← pygetattr s "full_name"
  let team ← pygetattr s "team"
  let seed ← pygetattr s "seed_time_raw"
  let res ← pygetattr s "result_time_raw"
  let mark ← pygetattr s "result_mark"
  pure ("<tr><td>" ++ pyOrRender heat "-" ++ " / " ++ pyOrRender lane "-" ++
    "</td><td>" ++ pyValStr nm ++ "</td><td>" ++ pyOrRender team "" ++
    "</td><td>" ++ pyOrRender seed "" ++ "</td><td>" ++ pyOrRender res "" ++
    "</td><td>" ++ pyOrRender mark "" ++ "</td><td>" ++ place ++ "</td></tr>")

/-- `str(places.get(s.id, ""))`. -/
def placeStr (m : List (Nat × Nat)) (k : Nat) : String :=
  match dictGet m k with
  | none => ""
  | some p => intRepr (p : Int)

/-- the default (`sort_by="place"`) row sort key of `_build_protocol_html`:
`(s.result_time_cs is None, s.result_time_cs or 99999999,
s.full_name.lower())`. -/
def placeSortKey (s : Swimmer) : K3 :=
  (b2i s.result_time_cs.isNone, pyOr s.result_time_cs 99999999, s.full_name.toLower)

/-- the flat (`grouped=False`) row loop of `_build_protocol_html`: each
swimmer of the sorted roster is rendered with its place string. -/
def build_protocol_rows_flat (swimmers : List Swimmer) : Except String (List String) :=
  (isort (kle placeSortKey) swimmers).mapM
    (fun s => row_html s (placeStr (protocolPlaces swimmers) s.id))

/-- `_build_protocol_html` (flat variant): heading, header row, the rendered
rows, closing tag. -/
def build_protocol_html_flat (title : String) (swimmers : List Swimmer) :
    Except String String := do
  let rows ← build_protocol_rows_flat swimmers
  pure ("<h2>" ++ title ++ "</h2><table><tr><th>Заплыв/дорожка</th><th>ФИО</th>" ++
    "<th>Команда</th><th>Заявка</th><th>Результат</th><th>Отм.</th><th>Место</th></tr>" ++
    String.join rows ++ "</table>")

/-- Every row rendering fails: the attribute table of `Swimmer` has no
`result_mark` entry, so the f-string's `s.result_mark` read raises. -/
theorem row_html_always_errors (s : Swimmer) (place : String) :
    row_html s place =
      Except.error "AttributeError: Swimmer object has no attribute result_mark" := rfl

def c4Swimmer : Swimmer :=
  { id := 1, event_id := 1, full_name := "A", heat := some 1, lane := some 1 }

/-- C4 (code does not satisfy the claim): building a protocol for a roster
with at least one competitor does not return an HTML string — the row
renderer reads `s.result_mark`, a field that does not exist on the
`Swimmer` dataclass (`models.py` declares `result_status`), so the build
raises `AttributeError` on the very first row. -/
theorem C4_protocol_crashes_on_result_mark :
    build_protocol_html_flat "50m" [c4Swimmer] =
      Except.error "AttributeError: Swimmer object has no attribute result_mark" := rfl

/-! ### Lane-contiguity machinery (C2, C8) -/

/-- the lane numbers held by ACTIVE competitors assigned to heat `h`. -/
def lanesInHeat (out : List Swimmer) (h : Int) : List (Option Int) :=
  (out.filter (fun s => !(isDNS s) && s.heat == some h)).map (fun s => s.lane)

/-- a 1-based lane number as the optional-integer field value. -/
def castLane (t : Nat) : Option Int := some ((t : Int))

/-- the contiguous lane set `{1, …, k}`. -/
def contiguous (k : Nat) : List (Option Int) :=
  (List.range' 1 k).map castLane

theorem assignLanes_lanes (h : Int) :
    ∀ (i : Nat) (g : List Swimmer),
      (assignLanes h i g).map (fun s => s.lane) =
        (List.range' i g.length).map castLane := by
  intro i g
  induction g generalizing i with
  | nil => rfl
  | cons s rest ih =>
    show castLane i :: (assignLanes h (i + 1) rest).map (fun s => s.lane) = _
    rw [ih (i + 1)]
    show _ = (List.range' i (rest.length + 1)).map castLane
    rw [List.range'_succ]
    rfl

theorem isDNS_clearHL (s : Swimmer) : isDNS (clearHL s) = isDNS s := rfl

theorem mem_dnsPart_isDNS {l : List Swimmer} {s : Swimmer} (hs : s ∈ dnsPart l) :
    isDNS s = true := by
  unfold dnsPart at hs
  rcases List.mem_map.mp hs with ⟨t, ht, rfl⟩
  rw [isDNS_clearHL]
  exact List.of_mem_filter ht

theorem mem_heatGroup_active {l : List Swimmer} {h : Int} {s : Swimmer}
    (hs : s ∈ heatGroup l h) : isDNS s = false := by
  unfold heatGroup activesPart at hs
  have := List.of_mem_filter (List.mem_of_mem_filter hs)
  simpa using this

theorem filter_assignLanes (h h' : Int) :
    ∀ (i : Nat) (g : List Swimmer), (∀ s ∈ g, isDNS s = false) →
      (assignLanes h i g).filter (fun s => !(isDNS s) && s.heat == some h') =
        if h = h' then assignLanes h i g else [] := by
  intro i g
  induction g generalizing i with
  | nil =>
    intro _
    show ([] : List Swimmer) = if h = h' then [] else []
    rw [ite_self]
  | cons s rest ih =>
    intro hact
    have hs : isDNS s = false := hact s (List.mem_cons_self _ _)
    have hdns : isDNS {s with heat := some h, lane := some ((i : Int))} = false := hs
    show List.filter _ ({s with heat := some h, lane := some ((i : Int))} ::
      assignLanes h (i + 1) rest) = _
    rw [List.filter_cons]
    rw [ih (i + 1) (fun t ht => hact t (List.mem_cons_of_mem _ ht))]
    have hheat : ({s with heat := some h, lane := some ((i : Int))} : Swimmer).heat =
        some h := rfl
    have hexp : assignLanes h i (s :: rest) =
        {s with heat := some h, lane := some ((i : Int))} :: assignLanes h (i + 1) rest := rfl
    by_cases he : h = h'
    · subst he
      rw [hexp]
      simp [hdns, hheat]
    · simp [hdns, hheat, he]

theorem flatMap_ite_single {κ} [DecidableEq κ] (h : κ) (f : κ → List α) :
    ∀ (ks : List κ), ks.Nodup →
      (ks.flatMap (fun k => if k = h then f k else [])) = if h ∈ ks then f h else [] := by
  intro ks
  induction ks with
  | nil => intro _; simp
  | cons k ks ih =>
    intro hnd
    rw [List.flatMap_cons, ih (List.nodup_cons.mp hnd).2]
    by_cases he : k = h
    · subst he
      have hk : k ∉ ks := (List.nodup_cons.mp hnd).1
      simp [hk]
    · by_cases hm : h ∈ ks
      · simp [he, hm]
      · simp only [he, if_false, List.nil_append, hm]
        rw [if_neg (by intro hk; rcases List.mem_cons.mp hk with he2 | hm2
                       · exact he he2.symm
                       · exact hm hm2)]

/-- The active heat-`h` competitors of a `compress_lanes_within_heats`
output are (as a multiset) exactly the renumbered group collected under
key `h`. -/
theorem compress_filter_heat (l : List Swimmer) (h : Int) :
    ((compress_lanes_within_heats l).filter
        (fun s => !(isDNS s) && s.heat == some h)).Perm
      (if h ∈ heatKeys l then
        assignLanes h 1 (isort (kle laneSortKey) (heatGroup l h)) else []) := by
  unfold compress_lanes_within_heats
  refine ((perm_isort _ _).filter _).trans ?_
  rw [List.filter_append]
  have hdns : (dnsPart l).filter (fun s => !(isDNS s) && s.heat == some h) = [] := by
    apply List.filter_eq_nil_iff.mpr
    intro s hs
    simp [mem_dnsPart_isDNS hs]
  rw [hdns, List.nil_append, List.filter_flatMap]
  have hblocks : ∀ h' ∈ heatKeys l,
      (assignLanes h' 1 (isort (kle laneSortKey) (heatGroup l h'))).filter
          (fun s => !(isDNS s) && s.heat == some h) =
        if h' = h then assignLanes h' 1 (isort (kle laneSortKey) (heatGroup l h')) else [] := by
    intro h' _
    exact filter_assignLanes h' h 1 _
      (fun s hs => mem_heatGroup_active ((mem_isort _).mp hs))
  rw [List.flatMap_congr hblocks]
  rw [flatMap_ite_single h _ (heatKeys l) (heatKeys_nodup l)]

/-- Soft reseed produces contiguous lanes `{1..k}` in every heat. -/
theorem compress_contiguity (l : List Swimmer) (h : Int) :
    ∃ k, (lanesInHeat (compress_lanes_within_heats l) h).Perm (contiguous k) := by
  by_cases hmem : h ∈ heatKeys l
  · refine ⟨(isort (kle laneSortKey) (heatGroup l h)).length, ?_⟩
    have hp := compress_filter_heat l h
    rw [if_pos hmem] at hp
    unfold lanesInHeat
    refine (hp.map (fun s => s.lane)).trans ?_
    rw [assignLanes_lanes]
    exact List.Perm.refl _
  · refine ⟨0, ?_⟩
    have hp := compress_filter_heat l h
    rw [if_neg hmem] at hp
    unfold lanesInHeat
    have h2 := hp.map (fun s => s.lane)
    simpa [contiguous] using h2

theorem div_eq_iff_interval {L : Nat} (hL : 1 ≤ L) (j m : Nat) :
    j / L = m ↔ (m * L ≤ j ∧ j < m * L + L) := by
  constructor
  · rintro rfl
    refine ⟨Nat.div_mul_le_self j L, ?_⟩
    have h2 := Nat.div_add_mod j L
    have h3 : j % L < L := Nat.mod_lt _ (by omega)
    have h4 : L * (j / L) = j / L * L := Nat.mul_comm _ _
    omega
  · rintro ⟨h1, h2⟩
    have ha : m ≤ j / L := (Nat.le_div_iff_mul_le (by omega)).mpr h1
    have hb : j / L < m + 1 := by
      rw [Nat.div_lt_iff_lt_mul (by omega)]
      have hml : (m + 1) * L = m * L + L := by ring
      omega
    omega

theorem range_filter_div (L : Nat) (hL : 1 ≤ L) (m : Nat) :
    ∀ n, (List.range' 0 n).filter (fun j => j / L == m) =
      List.range' (m * L) (min L (n - m * L)) := by
  intro n
  induction n with
  | zero => simp
  | succ n ih =>
    have hcat : List.range' 0 (n + 1) = List.range' 0 n ++ [n] := by
      rw [List.range'_concat]
      simp
    rw [hcat, List.filter_append, ih]
    by_cases hd : n / L = m
    · have hint := (div_eq_iff_interval hL n m).mp hd
      have hf : List.filter (fun j => j / L == m) [n] = [n] := by
        simp [hd]
      rw [hf]
      have hmin1 : min L (n - m * L) = n - m * L := by omega
      have hmin2 : min L (n + 1 - m * L) = (n - m * L) + 1 := by omega
      rw [hmin1, hmin2, List.range'_concat]
      have : m * L + 1 * (n - m * L) = n := by omega
      rw [this]
    · have hint := fun hc => hd ((div_eq_iff_interval hL n m).mpr hc)
      have hnotin : ¬ (m * L ≤ n ∧ n < m * L + L) := hint
      have hf : List.filter (fun j => j / L == m) [n] = [] := by
        simp [hd]
      rw [hf, List.append_nil]
      have : min L (n + 1 - m * L) = min L (n - m * L) := by omega
      rw [this]

theorem filter_specAssign (L : Nat) (h : Int) :
    ∀ (i : Nat) (g : List Swimmer), (∀ s ∈ g, isDNS s = false) →
      ((specAssign L i g).filter (fun s => !(isDNS s) && s.heat == some h)).map
          (fun s => s.lane) =
        ((List.range' i g.length).filter (fun j => (((j / L + 1 : Nat) : Int)) == h)).map
          (fun j => castLane (j % L + 1)) := by
  intro i g
  induction g generalizing i with
  | nil => intro _; rfl
  | cons s rest ih =>
    intro hact
    have hs : isDNS s = false := hact s (List.mem_cons_self _ _)
    have hdns : isDNS ({s with heat := some ((i / L + 1 : Nat) : Int), lane := some ((i % L + 1 : Nat) : Int)} : Swimmer) = false := hs
    show (List.filter _ (({s with heat := some ((i / L + 1 : Nat) : Int), lane := some ((i % L + 1 : Nat) : Int)} : Swimmer) :: specAssign L (i + 1) rest)).map _ = _
    rw [List.filter_cons]
    have hlen : (s :: rest).length = rest.length + 1 := rfl
    rw [hlen, List.range'_succ, List.filter_cons]
    have hheat : ({s with heat := some ((i / L + 1 : Nat) : Int), lane := some ((i % L + 1 : Nat) : Int)} : Swimmer).heat = some ((i / L + 1 : Nat) : Int) := rfl
    by_cases hc : (((i / L + 1 : Nat) : Int)) = h
    · rw [if_pos (by rw [hdns, hheat, hc]; simp), if_pos (by simp [hc])]
      show castLane (i % L + 1) :: _ = castLane (i % L + 1) :: _
      rw [ih (i + 1) (fun t ht => hact t (List.mem_cons_of_mem _ ht))]
    · rw [if_neg (by
          rw [hdns, hheat]
          intro hcc
          simp only [Bool.not_false, Bool.true_and, beq_iff_eq, Option.some.injEq] at hcc
          exact hc hcc),
        if_neg (by
          intro hcc
          rw [beq_iff_eq] at hcc
          exact hc hcc)]
      exact ih (i + 1) (fun t ht => hact t (List.mem_cons_of_mem _ ht))

/-- Full reseed produces contiguous lanes `{1..k}` in every heat. -/
theorem full_reseed_contiguity (l : List Swimmer) (L : Nat) (hL : 1 ≤ L) (h : Int) :
    ∃ k, (lanesInHeat (full_reseed l (L : Int)) h).Perm (contiguous k) := by
  unfold full_reseed lanesInHeat
  rw [List.filter_append]
  have hdns : (dnsPart l).filter (fun s => !(isDNS s) && s.heat == some h) = [] := by
    apply List.filter_eq_nil_iff.mpr
    intro s hs
    simp [mem_dnsPart_isDNS hs]
  rw [hdns, List.append_nil, assignByRank_eq_spec]
  rw [filter_specAssign L h 0 _
    (fun s hs => by
      have := List.of_mem_filter ((mem_isort _).mp hs)
      simpa using this)]
  rcases le_or_lt h 0 with hh | hh
  · refine ⟨0, ?_⟩
    have hnil : (List.range' 0 (isort (kle seedSortKey) (activesPart l)).length).filter
        (fun j => (((j / L + 1 : Nat) : Int)) == h) = [] := by
      apply List.filter_eq_nil_iff.mpr
      intro j _
      intro hcontra
      rw [beq_iff_eq] at hcontra
      generalize j / L = n at hcontra
      omega
    rw [hnil]
    simp [contiguous]
  · obtain ⟨m, rfl⟩ : ∃ m : Nat, h = ((m + 1 : Nat) : Int) := ⟨(h - 1).toNat, by omega⟩
    have hcond : ∀ j ∈ List.range' 0 (isort (kle seedSortKey) (activesPart l)).length,
        ((((j / L + 1 : Nat) : Int)) == ((m + 1 : Nat) : Int)) = (j / L == m) := by
      intro j _
      by_cases hc : j / L = m
      · rw [hc]
        apply bool_eq_of_iff
        rw [beq_iff_eq, beq_iff_eq]
        simp
      · have hne : (((j / L + 1 : Nat) : Int)) ≠ ((m + 1 : Nat) : Int) := by
          intro hcc
          refine hc ?_
          generalize hn : j / L = n at hcc ⊢
          omega
        apply bool_eq_of_iff
        rw [beq_iff_eq, beq_iff_eq]
        constructor
        · intro hcc; exact absurd hcc hne
        · intro hcc; exact absurd hcc hc
    rw [List.filter_congr hcond]
    rw [range_filter_div L hL m]
    refine ⟨min L ((isort (kle seedSortKey) (activesPart l)).length - m * L), ?_⟩
    have heq : (List.range' (m * L)
        (min L ((isort (kle seedSortKey) (activesPart l)).length - m * L))).map
          (fun j => castLane (j % L + 1)) =
        contiguous (min L ((isort (kle seedSortKey) (activesPart l)).length - m * L)) := by
      unfold contiguous
      rw [List.range'_eq_map_range, List.range'_eq_map_range, List.map_map, List.map_map]
      apply List.map_congr_left
      intro t ht
      have htk : t < min L ((isort (kle seedSortKey) (activesPart l)).length - m * L) :=
        List.mem_range.mp ht
      show castLane ((m * L + t) % L + 1) = castLane (1 + t)
      have hmod : (m * L + t) % L = t := by
        rw [Nat.add_comm, Nat.mul_comm, Nat.add_mul_mod_self_left]
        exact Nat.mod_eq_of_lt (by omega)
      rw [hmod, Nat.add_comm]
    rw [heq]

/-- C2: lane contiguity invariant.  For every competitor list (and
laneCapacity ≥ 1 for the full reseed), after either reseed operation the
set of lane numbers held by ACTIVE competitors of any heat is exactly
`{1, …, k}` for some `k ≥ 0` — no gaps and no duplicates. -/
theorem C2_lane_contiguity (l : List Swimmer) (L : Nat) (hL : 1 ≤ L) :
    (∀ h : Int, ∃ k, (lanesInHeat (compress_lanes_within_heats l) h).Perm (contiguous k)) ∧
      (∀ h : Int, ∃ k, (lanesInHeat (full_reseed l (L : Int)) h).Perm (contiguous k)) :=
  ⟨fun h => compress_contiguity l h, fun h => full_reseed_contiguity l L hL h⟩

/-- C2 witness: both reseed modes on a roster with a DNS gap, six lanes. -/
theorem C2_lane_contiguity_witness :
    1 ≤ 2 ∧
      ((∀ h : Int, ∃ k, (lanesInHeat
          (compress_lanes_within_heats [c4Swimmer, mutcx2, mutcx]) h).Perm (contiguous k)) ∧
        (∀ h : Int, ∃ k, (lanesInHeat
          (full_reseed [c4Swimmer, mutcx2, mutcx] ((2 : Nat) : Int)) h).Perm (contiguous k))) :=
  ⟨by decide, C2_lane_contiguity [c4Swimmer, mutcx2, mutcx] 2 (by decide)⟩

/-! ### Heat-frame machinery (C8) -/

theorem tripLe_fst_le {x y : K3} (h : tripLe x y = true) : x.1 ≤ y.1 := by
  rw [tripLe_iff] at h
  rcases h with h | ⟨e, _⟩
  · exact le_of_lt h
  · exact le_of_eq e

theorem swimmer_update_id {s : Swimmer} {h v : Int}
    (hh : s.heat = some h) (hv : s.lane = some v) :
    ({s with heat := some h, lane := some v} : Swimmer) = s := by
  cases s
  simp_all

theorem pyOr_castLane {v : Nat} (hv : 1 ≤ v) (d : Int) : pyOr (castLane v) d = (v : Int) := by
  show (if (v : Int) = 0 then d else ((v : Int))) = (v : Int)
  rw [if_neg (by omega)]

/-- A lane-sorted group whose lanes are exactly `{a, …, a + n - 1}` is left
unchanged by the renumbering pass starting at `a`. -/
theorem sorted_lanes_assign_id :
    ∀ (g : List Swimmer) (a : Nat) (h : Int), 1 ≤ a →
      SortedBy (kle laneSortKey) g →
      ((g.map (fun s => s.lane)).Perm ((List.range' a g.length).map castLane)) →
      (∀ s ∈ g, s.heat = some h) →
      assignLanes h a g = g := by
  intro g
  induction g with
  | nil => intro a h _ _ _ _; rfl
  | cons s g' ih =>
    intro a h ha hsort hperm hheat
    have hlen : (s :: g').length = g'.length + 1 := rfl
    rw [hlen, List.range'_succ] at hperm
    have hlanes : ∀ t ∈ s :: g', ∃ v : Nat, t.lane = castLane v ∧ a ≤ v := by
      intro t ht
      have hmem : t.lane ∈ (castLane a :: (List.range' (a + 1) g'.length).map castLane) :=
        hperm.mem_iff.mp (List.mem_map_of_mem _ ht)
      rcases List.mem_cons.mp hmem with he | hm
      · exact ⟨a, he, le_refl _⟩
      · rcases List.mem_map.mp hm with ⟨v, hv, hveq⟩
        rcases List.mem_range'.mp hv with ⟨i, _, rfl⟩
        exact ⟨a + 1 + 1 * i, hveq.symm, by omega⟩
    have hsl : s.lane = castLane a := by
      have hmemA : castLane a ∈ (s :: g').map (fun s => s.lane) := by
        apply hperm.mem_iff.mpr
        exact List.mem_cons_self _ _
      rcases List.mem_map.mp hmemA with ⟨b, hbmem, hblane⟩
      rcases hlanes s (List.mem_cons_self _ _) with ⟨vs, hvs, hvsa⟩
      rcases List.mem_cons.mp hbmem with he | hbm
      · rw [he] at hblane
        exact hblane
      · have hle := List.rel_of_pairwise_cons hsort hbm
        have hfst := tripLe_fst_le (x := laneSortKey s) (y := laneSortKey b) hle
        unfold laneSortKey at hfst
        rw [hvs, hblane] at hfst
        rw [pyOr_castLane (by omega), pyOr_castLane (by omega)] at hfst
        have : vs = a := by omega
        rw [hvs, this]
    have hperm' : (g'.map (fun s => s.lane)).Perm
        ((List.range' (a + 1) g'.length).map castLane) := by
      have hstep : (s :: g').map (fun s => s.lane) =
          s.lane :: g'.map (fun s => s.lane) := rfl
      rw [hstep, hsl] at hperm
      exact hperm.cons_inv
    have htl := ih (a + 1) h (by omega) hsort.of_cons hperm'
      (fun t ht => hheat t (List.mem_cons_of_mem _ ht))
    show ({s with heat := some h, lane := some ((a : Int))} : Swimmer) ::
      assignLanes h (a + 1) g' = s :: g'
    rw [htl, swimmer_update_id (hheat s (List.mem_cons_self _ _)) hsl]

theorem heatKey_eq_two_iff (s : Swimmer) : (heatKeyOf s = 2) ↔ s.heat = some 2 := by
  unfold heatKeyOf pyOr
  cases hh : s.heat with
  | none =>
    show ((1 : Int) = 2) ↔ _
    simp
  | some x =>
    show (if x = 0 then (1 : Int) else x) = 2 ↔ some x = some 2
    by_cases hx : x = 0
    · subst hx
      simp
    · rw [if_neg hx]
      simp

theorem heatGroup_two_eq (l : List Swimmer) :
    heatGroup l 2 = l.filter (fun s => !(isDNS s) && s.heat == some 2) := by
  unfold heatGroup activesPart
  rw [List.filter_filter]
  apply List.filter_congr
  intro s _
  apply bool_eq_of_iff
  simp only [Bool.and_eq_true, beq_iff_eq, Bool.not_eq_true']
  rw [heatKey_eq_two_iff]
  constructor
  · rintro ⟨h1, h2⟩; exact ⟨h2, h1⟩
  · rintro ⟨h1, h2⟩; exact ⟨h2, h1⟩

/-- Soft reseed leaves the heat-2 competitors — records, lanes and all —
untouched (as a multiset) whenever their lanes already form `{1..k}`. -/
theorem compress_heat2_frame (l : List Swimmer) (k : Nat)
    (h2 : ((l.filter (fun s => !(isDNS s) && s.heat == some 2)).map
        (fun s => s.lane)).Perm (contiguous k)) :
    ((compress_lanes_within_heats l).filter
        (fun s => !(isDNS s) && s.heat == some 2)).Perm
      (l.filter (fun s => !(isDNS s) && s.heat == some 2)) := by
  have hgrp := heatGroup_two_eq l
  by_cases hmem : (2 : Int) ∈ heatKeys l
  · have hp := compress_filter_heat l 2
    rw [if_pos hmem] at hp
    have hklen : (l.filter (fun s => !(isDNS s) && s.heat == some 2)).length = k := by
      have := h2.length_eq
      simpa [contiguous] using this
    have hlanes : ((isort (kle laneSortKey) (heatGroup l 2)).map (fun s => s.lane)).Perm
        ((List.range' 1 (isort (kle laneSortKey) (heatGroup l 2)).length).map castLane) := by
      refine ((perm_isort _ _).map _).trans ?_
      rw [length_isort, hgrp, hklen]
      exact h2
    have hheats : ∀ s ∈ isort (kle laneSortKey) (heatGroup l 2), s.heat = some 2 := by
      intro s hs
      have hsg := (mem_isort _).mp hs
      rw [hgrp] at hsg
      have hsp := List.of_mem_filter hsg
      simp only [Bool.and_eq_true, beq_iff_eq] at hsp
      exact hsp.2
    have hid := sorted_lanes_assign_id _ 1 2 (le_refl 1)
      (sortedBy_isort laneSortKey (heatGroup l 2)) hlanes hheats
    rw [hid] at hp
    refine hp.trans ((perm_isort _ _).trans ?_)
    rw [hgrp]
  · have hp := compress_filter_heat l 2
    rw [if_neg hmem] at hp
    have hnil : l.filter (fun s => !(isDNS s) && s.heat == some 2) = [] := by
      rw [← hgrp]
      cases hhg : heatGroup l 2 with
      | nil => rfl
      | cons s rest =>
        exfalso
        have hsmem : s ∈ heatGroup l 2 := by rw [hhg]; exact List.mem_cons_self _ _
        have hkey : heatKeyOf s = 2 := by
          have := List.of_mem_filter hsmem
          simpa using this
        have hin := heatKey_mem_heatKeys (List.mem_of_mem_filter hsmem)
        rw [hkey] at hin
        exact hmem hin
    rw [hnil]
    exact hp

/-- C8: soft reseed locality.  For a roster whose ACTIVE heat-2 competitors
hold the contiguous lanes `{1..k}`, `compress_lanes_within_heats` leaves
every heat-2 competitor's record (in particular its lane) unchanged, while
heat-1 lanes are compacted to a contiguous `{1..m}` — lanes shift only
within the affected heat. -/
theorem C8_soft_reseed_locality (l : List Swimmer) (k : Nat)
    (h2 : ((l.filter (fun s => !(isDNS s) && s.heat == some 2)).map
        (fun s => s.lane)).Perm (contiguous k)) :
    ((compress_lanes_within_heats l).filter
        (fun s => !(isDNS s) && s.heat == some 2)).Perm
      (l.filter (fun s => !(isDNS s) && s.heat == some 2)) ∧
      ∃ m, (lanesInHeat (compress_lanes_within_heats l) 1).Perm (contiguous m) :=
  ⟨compress_heat2_frame l k h2, compress_contiguity l 1⟩

def c8A : Swimmer := { id := 1, event_id := 1, full_name := "A", heat := some 1, lane := some 1 }

def c8B : Swimmer :=
  { id := 2, event_id := 1, full_name := "B", heat := none, lane := none, status := "DNS" }

def c8C : Swimmer := { id := 3, event_id := 1, full_name := "C", heat := some 1, lane := some 3 }

def c8D : Swimmer := { id := 4, event_id := 1, full_name := "D", heat := some 2, lane := some 1 }

def c8E : Swimmer := { id := 5, event_id := 1, full_name := "E", heat := some 2, lane := some 2 }

/-- C8 witness: heats {1,2} with the heat-1 competitor B absent; heat-2
records survive unchanged, heat-1 lanes compact to {1,2}. -/
theorem C8_soft_reseed_locality_witness :
    (([c8A, c8B, c8C, c8D, c8E].filter (fun s => !(isDNS s) && s.heat == some 2)).map
        (fun s => s.lane)).Perm (contiguous 2) ∧
      (((compress_lanes_within_heats [c8A, c8B, c8C, c8D, c8E]).filter
          (fun s => !(isDNS s) && s.heat == some 2)).Perm
        ([c8A, c8B, c8C, c8D, c8E].filter (fun s => !(isDNS s) && s.heat == some 2)) ∧
        ∃ m, (lanesInHeat (compress_lanes_within_heats [c8A, c8B, c8C, c8D, c8E]) 1).Perm
          (contiguous m)) :=
  ⟨by decide, C8_soft_reseed_locality [c8A, c8B, c8C, c8D, c8E] 2 (by decide)⟩

/-! ### `src/core/db.py` and `src/core/service.py` — repository operations (C3, C5) -/

/-- the persistent state: the `events` and `swimmers` tables (the
`audit_log` table only receives `log` inserts and is not modelled). -/
structure DB where
  events : List Event
  swimmers : List Swimmer
deriving DecidableEq, Repr

/-- SQL `CASE WHEN x IS NULL THEN 999 ELSE x END` — unlike Python's `or`,
`0` stays `0`. -/
def sqlNull999 : Option Int → Int
  | none => 999
  | some x => x

def sqlOrderKey (s : Swimmer) : K3 := (sqlNull999 s.heat, sqlNull999 s.lane, s.full_name)

/-- `MeetRepository.list_swimmers` (db.py lines 124–146), no search filter;
the `ORDER BY` is modelled as the stable sort on its key. -/
def list_swimmers (db : DB) (event_id : Nat) : List Swimmer :=
  isort (kle sqlOrderKey) (db.swimmers.filter (fun s => s.event_id == event_id))

def eventIdKey (e : Event) : K3 := ((e.id : Int), 0, "")

/-- `MeetRepository.list_events` (`ORDER BY id`). -/
def list_events (db : DB) : List Event := isort (kle eventIdKey) db.events

/-- one `UPDATE swimmers SET heat=?, lane=?, status=? WHERE id=?` of
`update_swimmer_positions` (db.py lines 193–198). -/
def applyPosition (u : Swimmer) (s : Swimmer) : Swimmer :=
  if s.id == u.id then {s with heat := u.heat, lane := u.lane, status := u.status} else s

def update_swimmer_positions (db : DB) (updated : List Swimmer) : DB :=
  { db with swimmers := updated.foldl (fun sw u => sw.map (applyPosition u)) db.swimmers }

/-- Modelled from the spec: `MeetRepository.restore_swimmers` is called by
`MeetService.restore_swimmers` (service.py line 48) and exercised by
`src/tests/test_service_dns.py`, but the method is absent from
`src/core/db.py` (which only has the symmetric `set_dns`).  The spec's
state machine (§4.2) mandates the ABSENT → ACTIVE transition for the given
ids: set `status` to the active sentinel `"OK"` for every row whose id is
listed. -/
def restoreOne (ids : List Nat) (s : Swimmer) : Swimmer :=
  if s.id ∈ ids then {s with status := "OK"} else s

def repo_restore_swimmers (db : DB) (ids : List Nat) : DB :=
  { db with swimmers := db.swimmers.map (restoreOne ids) }

/-- the seeding pass selected by `mode` in `MeetService.reseed_event`. -/
def reseedOp (mode : String) (lanes_count : Int) (roster : List Swimmer) : List Swimmer :=
  if mode == "full" then full_reseed roster lanes_count
  else compress_lanes_within_heats roster

/-- `MeetService.reseed_event` (service.py lines 52–60): `next(...)` raises
`StopIteration` when the event is missing, hence `Option`. -/
def reseed_event (db : DB) (event_id : Nat) (mode : String) : Option DB :=
  match (list_events db).find? (fun e => e.id == event_id) with
  | none => none
  | some event =>
    some (update_swimmer_positions db (reseedOp mode event.lanes_count (list_swimmers db event_id)))

/-- `MeetService.restore_swimmers` (service.py lines 47–50): restore the
ids, then reseed the event (the audit-log write is not modelled). -/
def service_restore_swimmers (db : DB) (event_id : Nat) (ids : List Nat)
    (mode : String) : Option DB :=
  reseed_event (repo_restore_swimmers db ids) event_id mode

theorem foldl_map_comm {β : Type} (f : β → Swimmer → Swimmer) :
    ∀ (us : List β) (sw : List Swimmer),
      us.foldl (fun sw u => sw.map (f u)) sw =
        sw.map (fun s => us.foldl (fun s u => f u s) s) := by
  intro us
  induction us with
  | nil =>
    intro sw
    simp
  | cons u us ih =>
    intro sw
    rw [List.foldl_cons, ih, List.map_map]
    rfl

theorem nodup_split_key {A : Type} (key : A → Nat) {pre post : List A} {u : A}
    (hnd : (((pre ++ u :: post).map key)).Nodup) :
    (∀ v ∈ pre, key v ≠ key u) ∧ (∀ v ∈ post, key v ≠ key u) := by
  rw [List.map_append, List.map_cons] at hnd
  rcases List.nodup_append.mp hnd with ⟨hA, hB, hdisj⟩
  constructor
  · intro v hv he
    exact hdisj (List.mem_map_of_mem key hv) (by rw [he]; exact List.mem_cons_self _ _)
  · intro v hv he
    exact (List.nodup_cons.mp hB).1 (he ▸ List.mem_map_of_mem key hv)

theorem restoreOne_id (ids : List Nat) (s : Swimmer) : (restoreOne ids s).id = s.id := by
  unfold restoreOne
  split <;> rfl

theorem restoreOne_status (ids : List Nat) (s : Swimmer) :
    (restoreOne ids s).status = (if s.id ∈ ids then "OK" else s.status) := by
  unfold restoreOne
  split <;> rfl

theorem applyPosition_id (u s : Swimmer) : (applyPosition u s).id = s.id := by
  unfold applyPosition
  split <;> rfl

theorem applyPosition_event (u s : Swimmer) : (applyPosition u s).event_id = s.event_id := by
  unfold applyPosition
  split <;> rfl

theorem foldl_applyPosition_idev :
    ∀ (us : List Swimmer) (x : Swimmer),
      ((us.foldl (fun s u => applyPosition u s) x).id = x.id ∧
        (us.foldl (fun s u => applyPosition u s) x).event_id = x.event_id) := by
  intro us
  induction us with
  | nil => intro x; exact ⟨rfl, rfl⟩
  | cons u us ih =>
    intro x
    rw [List.foldl_cons]
    obtain ⟨h1, h2⟩ := ih (applyPosition u x)
    exact ⟨h1.trans (applyPosition_id u x), h2.trans (applyPosition_event u x)⟩

theorem foldl_applyPosition_status :
    ∀ (us : List Swimmer) (x : Swimmer),
      (∀ u ∈ us, u.id = x.id → u.status = x.status) →
      (us.foldl (fun s u => applyPosition u s) x).status = x.status := by
  intro us
  induction us with
  | nil => intro x _; rfl
  | cons u us ih =>
    intro x h
    rw [List.foldl_cons]
    have hy : (applyPosition u x).status = x.status ∧ (applyPosition u x).id = x.id := by
      unfold applyPosition
      split
      · rename_i hc
        rw [beq_iff_eq] at hc
        exact ⟨h u (List.mem_cons_self _ _) hc.symm, rfl⟩
      · exact ⟨rfl, rfl⟩
    have := ih (applyPosition u x) (fun u' hu' he => by
      rw [hy.1]
      exact h u' (List.mem_cons_of_mem _ hu') (he.trans hy.2))
    rw [this, hy.1]

theorem foldl_applyPosition_none :
    ∀ (us : List Swimmer) (x : Swimmer),
      (∀ u ∈ us, u.id ≠ x.id) → us.foldl (fun s u => applyPosition u s) x = x := by
  intro us
  induction us with
  | nil => intro x _; rfl
  | cons u us ih =>
    intro x h
    rw [List.foldl_cons]
    have hu : applyPosition u x = x := by
      unfold applyPosition
      rw [if_neg (by
        intro hc
        rw [beq_iff_eq] at hc
        exact h u (List.mem_cons_self _ _) hc.symm)]
    rw [hu]
    exact ih x (fun u' hu' => h u' (List.mem_cons_of_mem _ hu'))

theorem foldl_applyPosition_single (u0 : Swimmer) (pre post : List Swimmer) (x : Swimmer)
    (hpre : ∀ u ∈ pre, u.id ≠ x.id) (hpost : ∀ u ∈ post, u.id ≠ x.id) :
    (pre ++ u0 :: post).foldl (fun s u => applyPosition u s) x = applyPosition u0 x := by
  rw [List.foldl_append, foldl_applyPosition_none pre x hpre, List.foldl_cons]
  apply foldl_applyPosition_none
  intro t ht
  rw [applyPosition_id]
  exact hpost t ht

theorem clearHL_parts {a b : Swimmer} (h : clearHL a = clearHL b) :
    a.id = b.id ∧ a.status = b.status ∧ a.event_id = b.event_id :=
  ⟨(congrArg Swimmer.id h : (clearHL a).id = (clearHL b).id),
    (congrArg Swimmer.status h : (clearHL a).status = (clearHL b).status),
    (congrArg Swimmer.event_id h : (clearHL a).event_id = (clearHL b).event_id)⟩

theorem applyPosition_eq_of_clearHL {x u : Swimmer} (h : clearHL x = clearHL u) :
    applyPosition u x = u := by
  have hid := (clearHL_parts h).1
  unfold applyPosition
  rw [if_pos (by rw [beq_iff_eq]; exact hid)]
  show ({clearHL x with heat := u.heat, lane := u.lane, status := u.status} : Swimmer) = u
  rw [h]
  rfl

theorem nodup_key_unique {f : Swimmer → Nat} :
    ∀ {l : List Swimmer}, ((l.map f)).Nodup →
      ∀ {a b : Swimmer}, a ∈ l → b ∈ l → f a = f b → a = b := by
  intro l
  induction l with
  | nil => intro _ a b ha; cases ha
  | cons x l ih =>
    intro hnd a b ha hb he
    rw [List.map_cons, List.nodup_cons] at hnd
    rcases List.mem_cons.mp ha with rfl | ha'
    · rcases List.mem_cons.mp hb with rfl | hb'
      · rfl
      · exact absurd (he ▸ List.mem_map_of_mem f hb') hnd.1
    · rcases List.mem_cons.mp hb with rfl | hb'
      · exact absurd (he ▸ List.mem_map_of_mem f ha') hnd.1
      · exact ih hnd.2 ha' hb' he

theorem reseedOp_map_clearHL (mode : String) (L : Int) (roster : List Swimmer) :
    ((reseedOp mode L roster).map clearHL).Perm (roster.map clearHL) := by
  unfold reseedOp
  split
  · exact full_reseed_map_clearHL_perm roster L
  · exact compress_map_clearHL_perm roster

theorem reseedOp_mem_corr {mode : String} {L : Int} {roster : List Swimmer} {u : Swimmer}
    (hu : u ∈ reseedOp mode L roster) : ∃ x ∈ roster, clearHL x = clearHL u := by
  have h1 : clearHL u ∈ (reseedOp mode L roster).map clearHL := List.mem_map_of_mem _ hu
  have h2 := (reseedOp_map_clearHL mode L roster).mem_iff.mp h1
  rcases List.mem_map.mp h2 with ⟨x, hx, he⟩
  exact ⟨x, hx, he⟩

theorem reseedOp_mem_corr_rev {mode : String} {L : Int} {roster : List Swimmer} {x : Swimmer}
    (hx : x ∈ roster) : ∃ u ∈ reseedOp mode L roster, clearHL u = clearHL x := by
  have h1 : clearHL x ∈ roster.map clearHL := List.mem_map_of_mem _ hx
  have h2 := (reseedOp_map_clearHL mode L roster).mem_iff.mpr h1
  rcases List.mem_map.mp h2 with ⟨u, hu, he⟩
  exact ⟨u, hu, he⟩

theorem reseedOp_ids_perm (mode : String) (L : Int) (roster : List Swimmer) :
    ((reseedOp mode L roster).map (fun s => s.id)).Perm (roster.map (fun s => s.id)) := by
  have h := (reseedOp_map_clearHL mode L roster).map (fun s => s.id)
  rw [List.map_map, List.map_map] at h
  have e1 : (reseedOp mode L roster).map ((fun s : Swimmer => s.id) ∘ clearHL) =
      (reseedOp mode L roster).map (fun s => s.id) :=
    List.map_congr_left (fun a _ => rfl)
  have e2 : roster.map ((fun s : Swimmer => s.id) ∘ clearHL) =
      roster.map (fun s => s.id) :=
    List.map_congr_left (fun a _ => rfl)
  rw [e1, e2] at h
  exact h

/-- C3: for every event present in the database and every id list,
`MeetService.restore_swimmers` completes: it flips exactly the listed
competitors to ACTIVE (`"OK"`) — every other competitor keeps its status —
and then performs the chosen seeding pass on the event, whose output is
exactly (as a multiset) the event's roster rows afterwards.
The event's lane capacity is required to be at least 1, the spec's
precondition on the seeding engine — at `lanes_count = 0` the full pass
divides by zero in `full_reseed` (reseeding.py line 45), an error path the
total `Int.fdiv` of this embedding would otherwise hide.
(`MeetRepository.restore_swimmers` itself is spec-modelled, see
`repo_restore_swimmers`.) -/
theorem C3_restore_swimmers (db : DB) (event_id : Nat) (ids : List Nat)
    (mode : String) (ev : Event) (hL : 1 ≤ ev.lanes_count)
    (hev : (list_events db).find? (fun e => e.id == event_id) = some ev)
    (hnd : (db.swimmers.map (fun s => s.id)).Nodup) :
    ∃ db', service_restore_swimmers db event_id ids mode = some db' ∧
      (∀ s ∈ db.swimmers, ∃ s' ∈ db'.swimmers, s'.id = s.id ∧
        s'.status = (if s.id ∈ ids then "OK" else s.status)) ∧
      (db'.swimmers.filter (fun s => s.event_id == event_id)).Perm
        (reseedOp mode ev.lanes_count
          (list_swimmers (repo_restore_swimmers db ids) event_id)) := by
  set db2 := repo_restore_swimmers db ids with hdb2
  set roster := list_swimmers db2 event_id with hroster
  set updated := reseedOp mode ev.lanes_count roster with hupd
  set db' := update_swimmer_positions db2 updated with hdb'
  have hrun : service_restore_swimmers db event_id ids mode = some db' := by
    show reseed_event db2 event_id mode = some db'
    unfold reseed_event
    have hle : list_events db2 = list_events db := rfl
    rw [hle, hev]
  have hids2 : db2.swimmers.map (fun s => s.id) = db.swimmers.map (fun s => s.id) := by
    show (db.swimmers.map (restoreOne ids)).map (fun s => s.id) = _
    rw [List.map_map]
    exact List.map_congr_left (fun a _ => restoreOne_id ids a)
  have hnd2 : (db2.swimmers.map (fun s => s.id)).Nodup := by rw [hids2]; exact hnd
  have hrosterMem : ∀ x ∈ roster, x ∈ db2.swimmers := by
    intro x hx
    exact List.mem_of_mem_filter ((mem_isort _).mp hx)
  have hrosterIdsNodup : (roster.map (fun s => s.id)).Nodup := by
    have hperm : (roster.map (fun s => s.id)).Perm
        ((db2.swimmers.filter (fun s => s.event_id == event_id)).map (fun s => s.id)) :=
      (perm_isort _ _).map _
    refine hperm.nodup_iff.mpr ?_
    exact List.Nodup.sublist (List.Sublist.map _ (List.filter_sublist _)) hnd2
  have hupdIds : ((updated.map (fun s => s.id))).Perm (roster.map (fun s => s.id)) :=
    reseedOp_ids_perm mode ev.lanes_count roster
  have hupdIdsNodup : (updated.map (fun s => s.id)).Nodup :=
    hupdIds.nodup_iff.mpr hrosterIdsNodup
  have hdbsw : db'.swimmers = db2.swimmers.map
      (fun x => updated.foldl (fun s u => applyPosition u s) x) := by
    show updated.foldl (fun sw u => sw.map (applyPosition u)) db2.swimmers = _
    exact foldl_map_comm _ _ _
  have hfoldid : ∀ x : Swimmer,
      (updated.foldl (fun s u => applyPosition u s) x).id = x.id :=
    fun x => (foldl_applyPosition_idev updated x).1
  have hfoldev : ∀ x : Swimmer,
      (updated.foldl (fun s u => applyPosition u s) x).event_id = x.event_id :=
    fun x => (foldl_applyPosition_idev updated x).2
  have hstatus_match : ∀ x ∈ db2.swimmers, ∀ u ∈ updated, u.id = x.id →
      u.status = x.status := by
    intro x hx u hu he
    rcases reseedOp_mem_corr hu with ⟨x0, hx0, hc⟩
    have hparts := clearHL_parts hc
    have hx0x : x0 = x :=
      nodup_key_unique hnd2 (hrosterMem x0 hx0) hx (by rw [hparts.1, he])
    rw [← hparts.2.1, hx0x]
  have hstatusB : ∀ s ∈ db.swimmers, ∃ s' ∈ db'.swimmers, s'.id = s.id ∧
      s'.status = (if s.id ∈ ids then "OK" else s.status) := by
    intro s hs
    have hs2 : restoreOne ids s ∈ db2.swimmers := List.mem_map_of_mem _ hs
    refine ⟨updated.foldl (fun s u => applyPosition u s) (restoreOne ids s), ?_, ?_, ?_⟩
    · rw [hdbsw]
      exact List.mem_map_of_mem _ hs2
    · rw [hfoldid, restoreOne_id]
    · rw [foldl_applyPosition_status updated _
        (fun u hu he => hstatus_match _ hs2 u hu he), restoreOne_status]
  have hfilter : db'.swimmers.filter (fun s => s.event_id == event_id) =
      (db2.swimmers.filter (fun s => s.event_id == event_id)).map
        (fun x => updated.foldl (fun s u => applyPosition u s) x) := by
    rw [hdbsw, List.filter_map]
    congr 1
    apply List.filter_congr
    intro x _
    show ((updated.foldl (fun s u => applyPosition u s) x).event_id == event_id) =
      (x.event_id == event_id)
    rw [hfoldev x]
  have hfold_eq : ∀ x ∈ db2.swimmers.filter (fun s => s.event_id == event_id),
      ∃ u ∈ updated, updated.foldl (fun s u => applyPosition u s) x = u := by
    intro x hxf
    have hxmem : x ∈ db2.swimmers := List.mem_of_mem_filter hxf
    have hxro : x ∈ roster := (mem_isort _).mpr hxf
    have hxid : x.id ∈ updated.map (fun s => s.id) :=
      hupdIds.mem_iff.mpr (List.mem_map_of_mem _ hxro)
    rcases List.mem_map.mp hxid with ⟨u, hu, hue⟩
    refine ⟨u, hu, ?_⟩
    obtain ⟨pre, post, hsp⟩ := List.append_of_mem hu
    have hne := nodup_split_key (fun s : Swimmer => s.id) (hsp ▸ hupdIdsNodup)
    rw [hsp, foldl_applyPosition_single u pre post x
      (fun v hv hvx => hne.1 v hv (hvx.trans hue.symm))
      (fun v hv hvx => hne.2 v hv (hvx.trans hue.symm))]
    rcases reseedOp_mem_corr hu with ⟨x0, hx0, hc⟩
    have hx0x : x0 = x :=
      nodup_key_unique hnd2 (hrosterMem x0 hx0) hxmem (by rw [(clearHL_parts hc).1, hue])
    exact applyPosition_eq_of_clearHL (by rw [← hx0x]; exact hc)
  have hmemiff : ∀ y, y ∈ db'.swimmers.filter (fun s => s.event_id == event_id) ↔
      y ∈ updated := by
    intro y
    rw [hfilter]
    constructor
    · intro hy
      rcases List.mem_map.mp hy with ⟨x, hxf, rfl⟩
      rcases hfold_eq x hxf with ⟨u, hu, he⟩
      rw [he]
      exact hu
    · intro hy
      rcases reseedOp_mem_corr hy with ⟨x0, hx0, hc⟩
      have hx0f : x0 ∈ db2.swimmers.filter (fun s => s.event_id == event_id) :=
        (mem_isort _).mp hx0
      rcases hfold_eq x0 hx0f with ⟨u', hu', he'⟩
      have hid1 : u'.id = x0.id := by rw [← he']; exact hfoldid x0
      have hid2 : x0.id = y.id := (clearHL_parts hc).1
      have huy : u' = y := nodup_key_unique hupdIdsNodup hu' hy (by rw [hid1, hid2])
      rw [← huy, ← he']
      exact List.mem_map_of_mem _ hx0f
  have hndids' : db'.swimmers.map (fun s => s.id) = db2.swimmers.map (fun s => s.id) := by
    rw [hdbsw, List.map_map]
    exact List.map_congr_left (fun a _ => hfoldid a)
  have hnd' : (db'.swimmers.filter (fun s => s.event_id == event_id)).Nodup := by
    have hnd'' : (db'.swimmers.map (fun s => s.id)).Nodup := by
      rw [hndids']
      exact hnd2
    have hsub : ((db'.swimmers.filter (fun s => s.event_id == event_id)).map
        (fun s => s.id)).Nodup :=
      List.Nodup.sublist (List.Sublist.map _ (List.filter_sublist _)) hnd''
    exact List.Nodup.of_map _ hsub
  have hndu : updated.Nodup := List.Nodup.of_map _ hupdIdsNodup
  exact ⟨db', hrun, hstatusB, (List.perm_ext_iff_of_nodup hnd' hndu).mpr hmemiff⟩

def c3Ev : Event := { id := 1, name := "E", lanes_count := 2 }

def c3S1 : Swimmer := { id := 1, event_id := 1, full_name := "A", heat := some 1, lane := some 1 }

def c3S2 : Swimmer := { id := 2, event_id := 1, full_name := "B", status := "DNS" }

def c3DB : DB := { events := [c3Ev], swimmers := [c3S1, c3S2] }

theorem C3_restore_swimmers_witness :
    (1 ≤ c3Ev.lanes_count ∧
      (list_events c3DB).find? (fun e => e.id == 1) = some c3Ev ∧
      (c3DB.swimmers.map (fun s => s.id)).Nodup) ∧
    (∃ db', service_restore_swimmers c3DB 1 [2] "soft" = some db' ∧
      (∀ s ∈ c3DB.swimmers, ∃ s' ∈ db'.swimmers, s'.id = s.id ∧
        s'.status = (if s.id ∈ [2] then "OK" else s.status)) ∧
      (db'.swimmers.filter (fun s => s.event_id == 1)).Perm
        (reseedOp "soft" c3Ev.lanes_count
          (list_swimmers (repo_restore_swimmers c3DB [2]) 1))) :=
  ⟨⟨by decide, by decide, by decide⟩,
    C3_restore_swimmers c3DB 1 [2] "soft" c3Ev (by decide) (by decide) (by decide)⟩

/-! ### Idempotence of the soft reseed (C10) -/

/-- one per-heat block of `compress_lanes_within_heats`: the lane-sorted,
renumbered group collected under key `h`. -/
def passBlock (l : List Swimmer) (h : Int) : List Swimmer :=
  assignLanes h 1 (isort (kle laneSortKey) (heatGroup l h))

theorem compress_def (l : List Swimmer) :
    compress_lanes_within_heats l =
      isort (kle outSortKey) (dnsPart l ++ (heatKeys l).flatMap (passBlock l)) := rfl

theorem assignLanes_length (h : Int) :
    ∀ (i : Nat) (g : List Swimmer), (assignLanes h i g).length = g.length := by
  intro i g
  induction g generalizing i with
  | nil => rfl
  | cons s rest ih => simp [assignLanes, ih]

theorem assignLanes_mem_heat {h : Int} :
    ∀ {i : Nat} {g : List Swimmer} {s : Swimmer},
      s ∈ assignLanes h i g → s.heat = some h := by
  intro i g
  induction g generalizing i with
  | nil => intro s hs; exact absurd hs (List.not_mem_nil _)
  | cons t rest ih =>
    intro s hs
    have hs' : s ∈ ({t with heat := some h, lane := some ((i : Int))} : Swimmer) ::
        assignLanes h (i + 1) rest := hs
    rcases List.mem_cons.mp hs' with he | hm
    · subst he; rfl
    · exact ih hm

theorem assignLanes_mem_active {h : Int} :
    ∀ {i : Nat} {g : List Swimmer}, (∀ s ∈ g, isDNS s = false) →
      ∀ {s : Swimmer}, s ∈ assignLanes h i g → isDNS s = false := by
  intro i g
  induction g generalizing i with
  | nil => intro _ s hs; exact absurd hs (List.not_mem_nil _)
  | cons t rest ih =>
    intro hact s hs
    have hs' : s ∈ ({t with heat := some h, lane := some ((i : Int))} : Swimmer) ::
        assignLanes h (i + 1) rest := hs
    rcases List.mem_cons.mp hs' with he | hm
    · subst he
      exact hact t (List.mem_cons_self _ _)
    · exact ih (fun u hu => hact u (List.mem_cons_of_mem _ hu)) hm

theorem heatKeyOf_ne_zero (s : Swimmer) : heatKeyOf s ≠ 0 := by
  unfold heatKeyOf pyOr
  cases hh : s.heat with
  | none =>
    show (1 : Int) ≠ 0
    decide
  | some x =>
    show (if x = 0 then (1 : Int) else x) ≠ 0
    by_cases hx : x = 0
    · rw [if_pos hx]; decide
    · rw [if_neg hx]; exact hx

theorem heatKeys_ne_zero {l : List Swimmer} {h : Int} (hm : h ∈ heatKeys l) : h ≠ 0 := by
  unfold heatKeys at hm
  rw [mem_isort, List.mem_dedup] at hm
  rcases List.mem_map.mp hm with ⟨s, _, rfl⟩
  exact heatKeyOf_ne_zero s

theorem passBlock_mem_heatKey {l : List Swimmer} {h : Int} (hh : h ≠ 0)
    {s : Swimmer} (hs : s ∈ passBlock l h) : s.heat = some h ∧ heatKeyOf s = h := by
  have hheat : s.heat = some h := assignLanes_mem_heat hs
  refine ⟨hheat, ?_⟩
  unfold heatKeyOf
  rw [hheat]
  show (if h = 0 then (1 : Int) else h) = h
  rw [if_neg hh]

theorem passBlock_mem_active {l : List Swimmer} {h : Int} {s : Swimmer}
    (hs : s ∈ passBlock l h) : isDNS s = false :=
  assignLanes_mem_active (fun t ht => mem_heatGroup_active ((mem_isort _).mp ht)) hs

theorem flat_mem_active {l : List Swimmer} {s : Swimmer}
    (hs : s ∈ (heatKeys l).flatMap (passBlock l)) : isDNS s = false := by
  rcases List.mem_flatMap.mp hs with ⟨h, _, hsb⟩
  exact passBlock_mem_active hsb

theorem mem_dnsPart_cleared {l : List Swimmer} {s : Swimmer} (hs : s ∈ dnsPart l) :
    clearHL s = s := by
  unfold dnsPart at hs
  rcases List.mem_map.mp hs with ⟨t, _, rfl⟩
  exact clearHL_clearHL t

theorem compress_dns_cleared {l : List Swimmer} {s : Swimmer}
    (hs : s ∈ compress_lanes_within_heats l) (hd : isDNS s = true) : clearHL s = s := by
  rw [compress_def, mem_isort] at hs
  rcases List.mem_append.mp hs with hm | hm
  · exact mem_dnsPart_cleared hm
  · rw [flat_mem_active hm] at hd
    exact absurd hd (by decide)

/-- after a pass, the DNS records are already cleared, so the second pass's
`unchanged` list is just the DNS sublist. -/
theorem dnsPart_compress (l : List Swimmer) :
    dnsPart (compress_lanes_within_heats l) =
      (compress_lanes_within_heats l).filter isDNS := by
  unfold dnsPart
  have hid : ∀ s ∈ (compress_lanes_within_heats l).filter isDNS, clearHL s = s :=
    fun s hs => compress_dns_cleared (List.mem_of_mem_filter hs) (List.of_mem_filter hs)
  calc ((compress_lanes_within_heats l).filter isDNS).map clearHL
      = ((compress_lanes_within_heats l).filter isDNS).map id := List.map_congr_left hid
    _ = _ := List.map_id _

theorem activesPart_compress_perm (l : List Swimmer) :
    (activesPart (compress_lanes_within_heats l)).Perm
      ((heatKeys l).flatMap (passBlock l)) := by
  unfold activesPart
  rw [compress_def]
  refine ((perm_isort _ _).filter _).trans ?_
  rw [List.filter_append,
    List.filter_eq_nil_iff.mpr (fun s hs => by simp [mem_dnsPart_isDNS hs]),
    List.nil_append,
    List.filter_eq_self.mpr (fun s hs => by simp [flat_mem_active hs])]

theorem mem_heatKeys_iff {l : List Swimmer} {h : Int} :
    h ∈ heatKeys l ↔ ∃ s ∈ activesPart l, heatKeyOf s = h := by
  unfold heatKeys
  rw [mem_isort, List.mem_dedup, List.mem_map]

theorem passBlock_ne_nil {l : List Swimmer} {h : Int} (hm : h ∈ heatKeys l) :
    passBlock l h ≠ [] := by
  rcases mem_heatKeys_iff.mp hm with ⟨s, hs, he⟩
  have hg : s ∈ heatGroup l h := by
    unfold heatGroup
    exact List.mem_filter.mpr ⟨hs, by simp [he]⟩
  intro hnil
  have h1 : 0 < (heatGroup l h).length := List.length_pos_of_mem hg
  have h2 : (passBlock l h).length = (heatGroup l h).length := by
    unfold passBlock
    rw [assignLanes_length, length_isort]
  rw [hnil] at h2
  simp only [List.length_nil] at h2
  omega

/-- the set of occupied heat keys is stable under a pass. -/
theorem heatKeys_compress (l : List Swimmer) :
    heatKeys (compress_lanes_within_heats l) = heatKeys l := by
  have hmem : ∀ h : Int, h ∈ heatKeys (compress_lanes_within_heats l) ↔ h ∈ heatKeys l := by
    intro h
    constructor
    · intro hm
      rcases mem_heatKeys_iff.mp hm with ⟨s, hs, he⟩
      have hsf : s ∈ (heatKeys l).flatMap (passBlock l) :=
        (activesPart_compress_perm l).mem_iff.mp hs
      rcases List.mem_flatMap.mp hsf with ⟨h', hh', hsb⟩
      have hkey := (passBlock_mem_heatKey (heatKeys_ne_zero hh') hsb).2
      rw [← he, hkey]
      exact hh'
    · intro hm
      cases hb : passBlock l h with
      | nil => exact absurd hb (passBlock_ne_nil hm)
      | cons s rest =>
        have hsb : s ∈ passBlock l h := by rw [hb]; exact List.mem_cons_self _ _
        have hsa : s ∈ activesPart (compress_lanes_within_heats l) :=
          (activesPart_compress_perm l).mem_iff.mpr (List.mem_flatMap.mpr ⟨h, hm, hsb⟩)
        exact mem_heatKeys_iff.mpr
          ⟨s, hsa, (passBlock_mem_heatKey (heatKeys_ne_zero hm) hsb).2⟩
  have hnd1 := heatKeys_nodup (compress_lanes_within_heats l)
  have hnd2 := heatKeys_nodup l
  have hperm : (heatKeys (compress_lanes_within_heats l)).Perm (heatKeys l) :=
    (List.perm_ext_iff_of_nodup hnd1 hnd2).mpr hmem
  have hinj : Function.Injective intKey := by
    intro a b hab
    exact congrArg Prod.fst hab
  exact sortedBy_of_perm_nodup hperm (sortedBy_isort intKey _) (sortedBy_isort intKey _)
    (hnd1.map hinj)

theorem heatGroup_compress_perm (l : List Swimmer) {h : Int} (hm : h ∈ heatKeys l) :
    (heatGroup (compress_lanes_within_heats l) h).Perm (passBlock l h) := by
  unfold heatGroup
  refine ((activesPart_compress_perm l).filter _).trans ?_
  rw [List.filter_flatMap]
  have hblocks : ∀ h' ∈ heatKeys l,
      (passBlock l h').filter (fun s => heatKeyOf s == h) =
        if h' = h then passBlock l h' else [] := by
    intro h' hh'
    by_cases he : h' = h
    · subst he
      rw [if_pos rfl]
      apply List.filter_eq_self.mpr
      intro s hs
      simp [(passBlock_mem_heatKey (heatKeys_ne_zero hh') hs).2]
    · rw [if_neg he]
      apply List.filter_eq_nil_iff.mpr
      intro s hs
      simp [(passBlock_mem_heatKey (heatKeys_ne_zero hh') hs).2, he]
  rw [List.flatMap_congr hblocks,
    flatMap_ite_single h _ (heatKeys l) (heatKeys_nodup l), if_pos hm]

/-- within a block, the renumbered lanes make the presentation keys pairwise
distinct. -/
theorem passBlock_keys_nodup (l : List Swimmer) (h : Int) :
    ((passBlock l h).map outSortKey).Nodup := by
  have hl : (passBlock l h).map (fun s => s.lane) =
      (List.range' 1 (isort (kle laneSortKey) (heatGroup l h)).length).map castLane := by
    unfold passBlock
    exact assignLanes_lanes h 1 _
  have hnd2 : ((passBlock l h).map (fun s => pyOr s.lane 999)).Nodup := by
    have h1 : (passBlock l h).map (fun s => pyOr s.lane 999) =
        ((passBlock l h).map (fun s => s.lane)).map (fun o => pyOr o 999) := by
      rw [List.map_map]
      exact List.map_congr_left fun s _ => rfl
    have he : (passBlock l h).map (fun s => pyOr s.lane 999) =
        (List.range' 1 (isort (kle laneSortKey) (heatGroup l h)).length).map
          (fun v => Int.ofNat v) := by
      rw [h1, hl, List.map_map]
      apply List.map_congr_left
      intro v hv
      rcases List.mem_range'.mp hv with ⟨i, _, rfl⟩
      exact pyOr_castLane (by omega) 999
    rw [he]
    refine (List.nodup_range' _ _ _ Nat.one_pos).map ?_
    intro a b hab
    exact Int.ofNat.inj hab
  have hexact : ((passBlock l h).map outSortKey).map (fun t : K3 => t.2.1) =
      (passBlock l h).map (fun s => pyOr s.lane 999) := by
    rw [List.map_map]
    exact List.map_congr_left fun s _ => rfl
  exact List.Nodup.of_map _ (hexact ▸ hnd2)

/-- a second-pass block is already lane-sorted with contiguous lanes, so the
renumbering leaves it untouched. -/
theorem passBlock_compress_fix (l : List Swimmer) {h : Int} (hm : h ∈ heatKeys l) :
    passBlock (compress_lanes_within_heats l) h =
      isort (kle laneSortKey) (heatGroup (compress_lanes_within_heats l) h) := by
  unfold passBlock
  set g := isort (kle laneSortKey) (heatGroup (compress_lanes_within_heats l) h) with hg
  have hperm : g.Perm (passBlock l h) :=
    (perm_isort _ _).trans (heatGroup_compress_perm l hm)
  refine sorted_lanes_assign_id g 1 h (le_refl 1) (sortedBy_isort _ _) ?_ ?_
  · have h1 : (g.map (fun s => s.lane)).Perm ((passBlock l h).map (fun s => s.lane)) :=
      hperm.map _
    have h2 : (passBlock l h).map (fun s => s.lane) =
        (List.range' 1 (isort (kle laneSortKey) (heatGroup l h)).length).map castLane := by
      unfold passBlock
      exact assignLanes_lanes h 1 _
    have hlen : g.length = (isort (kle laneSortKey) (heatGroup l h)).length := by
      have h3 := hperm.length_eq
      rw [h3]
      unfold passBlock
      rw [assignLanes_length]
    rw [hlen, ← h2]
    exact h1
  · intro s hs
    exact (passBlock_mem_heatKey (heatKeys_ne_zero hm) (hperm.mem_iff.mp hs)).1

theorem passBlock_filter_class (l : List Swimmer) {h : Int} (hm : h ∈ heatKeys l)
    (k : K3) :
    (passBlock (compress_lanes_within_heats l) h).filter
        (fun a => decide (outSortKey a = k)) =
      (passBlock l h).filter (fun a => decide (outSortKey a = k)) := by
  rw [passBlock_compress_fix l hm]
  have hperm : (isort (kle laneSortKey)
        (heatGroup (compress_lanes_within_heats l) h)).Perm (passBlock l h) :=
    (perm_isort _ _).trans (heatGroup_compress_perm l hm)
  have hpf := hperm.filter (fun a => decide (outSortKey a = k))
  refine perm_eq_of_length_le_one hpf ?_
  rw [hpf.length_eq]
  exact filter_keyEq_length_le_one (passBlock_keys_nodup l h) k

/-- C10: `compress_lanes_within_heats` is idempotent — applying the soft
reseed twice in a row (with no status changes between the calls) gives
exactly the result of applying it once, record for record and in the same
output order. -/
theorem C10_compress_idempotent (l : List Swimmer) :
    compress_lanes_within_heats (compress_lanes_within_heats l) =
      compress_lanes_within_heats l := by
  apply sorted_eq_of_filter_eq outSortKey
  · exact sortedBy_isort outSortKey _
  · exact sortedBy_isort outSortKey _
  · intro k
    have hdnsEq : (dnsPart (compress_lanes_within_heats l)).filter
          (fun a => decide (outSortKey a = k)) =
        (dnsPart l).filter (fun a => decide (outSortKey a = k)) := by
      have hA : List.filter isDNS
            ((dnsPart l).filter (fun a => decide (outSortKey a = k))) =
          (dnsPart l).filter (fun a => decide (outSortKey a = k)) :=
        List.filter_eq_self.mpr
          (fun s hs => mem_dnsPart_isDNS (List.mem_of_mem_filter hs))
      have hB : List.filter isDNS
            (((heatKeys l).flatMap (passBlock l)).filter
              (fun a => decide (outSortKey a = k))) = [] :=
        List.filter_eq_nil_iff.mpr
          (fun s hs => by simp [flat_mem_active (List.mem_of_mem_filter hs)])
      rw [dnsPart_compress, List.filter_comm, compress_def, filter_isort,
        List.filter_append, List.filter_append, hA, hB, List.append_nil]
    have hflatEq : (((heatKeys (compress_lanes_within_heats l)).flatMap
          (passBlock (compress_lanes_within_heats l))).filter
          (fun a => decide (outSortKey a = k))) =
        (((heatKeys l).flatMap (passBlock l)).filter
          (fun a => decide (outSortKey a = k))) := by
      rw [heatKeys_compress, List.filter_flatMap, List.filter_flatMap]
      exact List.flatMap_congr (fun h hh => passBlock_filter_class l hh k)
    rw [compress_def (compress_lanes_within_heats l), filter_isort,
      List.filter_append, hdnsEq, hflatEq, compress_def l, filter_isort,
      List.filter_append]
